import Mathlib

/-!
# Verification of the taktician minimax search core

Shallow embedding of the iterative-deepening negamax searcher and the static
evaluator of the taktician Tak engine.

The embedded code is the `ai` package searcher found in the sources
(`minimax_test.go`, second file in the concatenation, lines 52-410): the
config, the transposition table (`ttGet`/`ttPut`), the alpha-beta core
`minimax` with PVS null-window re-search and fail-soft bounds, the
iterative-deepening driver `Analyze`, and `GetMove`.  The static evaluator
(`evaluate.go`) is embedded over a record of the rule-engine accessors it
reads.  The per-node move-reordering pass of the older search variant
(`part_002`, lines 244-261) is embedded as `reorderAux`/`reorder`.

The Tak rule engine itself is external to the sources (the spec treats it as
an opaque interface, section 6); it is represented by the `Game` structure,
whose fields are exactly the operations the searcher invokes.  The
`moveGenerator` used by the search loop is repository code that is absent
from the sources; following the spec it is represented by the abstract field
`genMoves` (modelled from the spec: the generator yields the candidate moves
in an order determined by position, ply, depth, transposition entry and
incoming pv; moves the rule engine rejects are skipped silently).

Deliberate abstractions, each of which only drops behaviour no claim talks
about: the `cfg.Size != p.Size()` panic guard is a precondition; debug
logging is dropped; the write-only `heatMap` is dropped (its only reads are
in the missing `moveGenerator`, subsumed by `genMoves`); the PRNG is
deterministic and folded into `genMoves`; wall-clock time estimation is
abstracted into a `timeStop` oracle placed at the exact program point of the
`estimate > limit` check (`timeStop i` stands for `limit != 0 && estimate >
limit` at iteration `i`; a zero/infinite limit is the constantly-false
oracle).  Machine integers: the searcher's `int64` values never overflow in
any run considered here, so they are embedded as `Int`; `uint64` hashes and
counters are embedded as `Nat` (counters only ever increment).
-/

namespace Taktician

/-- `maxEval int64 = 1 << 30` -/
def maxEval : Int := 1 <<< 30

/-- `minEval = -maxEval` -/
def minEval : Int := -maxEval

/-- `WinThreshold = 1 << 29` -/
def winThreshold : Int := 1 <<< 29

/-- `tableSize uint64 = (1 << 20)` -/
def tableSize : Nat := 1 <<< 20

/-- `boundType`: constants `lowerBound`, `exactBound`, `upperBound`. -/
inductive Bound where
  | lower
  | exact
  | upper
deriving DecidableEq, Repr, Inhabited

/-- `tableEntry`: one slot of the transposition table.  The debug-only
position pointer `p` is never written by the embedded code and is dropped. -/
structure TableEntry (M : Type) where
  hash : Nat
  depth : Nat
  value : Int
  bound : Bound
  m : M
deriving DecidableEq, Repr, Inhabited

/-- `Stats`: the per-`Analyze` search counters. -/
structure Stats where
  depth : Nat := 0
  generated : Nat := 0
  evaluated : Nat := 0
  terminal : Nat := 0
  visited : Nat := 0
  cutNodes : Nat := 0
  cut0 : Nat := 0
  cut1 : Nat := 0
  cutSearch : Nat := 0
  allNodes : Nat := 0
  ttHits : Nat := 0
deriving DecidableEq, Repr, Inhabited

/-- `MinimaxConfig` (the fields the embedded behaviour depends on:
`Size` is a checked precondition, `Debug` only logs, `Seed` and `NoSort`
only influence the abstract move generator, `Evaluate` is resolved into
`Game.evaluate`). -/
structure MMConfig where
  depth : Nat
  noTable : Bool := false
deriving DecidableEq, Repr

/-- The rule-engine interface (spec section 6) together with the resolved
evaluation function and the move generator, as used by the searcher. -/
structure Game (Pos M : Type) where
  /-- first component of `p.GameOver()`; the searcher discards the winner. -/
  over : Pos → Bool
  /-- `p.Hash()` -/
  hash : Pos → Nat
  /-- `p.Move(&m)`: `none` is a rule-violation error, skipped silently. -/
  move : Pos → M → Option Pos
  /-- `ai.evaluate(ai, p)` with the searcher's precomputed constants. -/
  evaluate : Pos → Int
  /-- Modelled from the spec: the `moveGenerator` (not among the source
  files) yields the legal-candidate moves of `p` in an order determined by
  position, ply, depth, the transposition entry and the incoming pv. -/
  genMoves : Pos → Nat → Nat → Option (TableEntry M) → List M → List M

variable {Pos M : Type}

/-- The searcher-owned mutable state: the transposition table (a function
from slot index to entry, all-zero entries initially) and the stats field. -/
structure SearchState (M : Type) where
  table : Nat → TableEntry M
  st : Stats

/-- `ttGet`: return the direct-mapped entry iff its stored hash verifies
(and the table is enabled). -/
def ttGet (noTable : Bool) (table : Nat → TableEntry M) (h : Nat) :
    Option (TableEntry M) :=
  if noTable then none
  else
    let te := table (h % tableSize)
    if te.hash = h then some te else none

/-- `ttPut` followed by the field writes: always-replace store at
`h % tableSize`. -/
def ttWrite (table : Nat → TableEntry M) (h : Nat) (e : TableEntry M) :
    Nat → TableEntry M :=
  fun k => if k = h % tableSize then e else table k

/-- The transposition-pruning condition `teSuffices` of `minimax`:
`te.depth >= depth && (exact || (value < α && upper) || (value > β && lower))`
or the proven-win clause `exact && |value| > WinThreshold`.  Note the strict
inequalities `te.value < α` and `te.value > β`. -/
def teSuffices (te : TableEntry M) (depth : Nat) (α β : Int) : Bool :=
  (decide (depth ≤ te.depth) &&
    (te.bound == Bound.exact ||
      (decide (te.value < α) && te.bound == Bound.upper) ||
      (decide (te.value > β) && te.bound == Bound.lower))) ||
  (te.bound == Bound.exact &&
    (decide (te.value > winThreshold) || decide (te.value < -winThreshold)))

/-- The `depth == 0 || over` base case: count the evaluation (and a terminal
node) and return the static evaluation with an empty pv. -/
def leafResult (G : Game Pos M) (p : Pos) (s : SearchState M) :
    List M × Int × SearchState M :=
  ([], G.evaluate p,
    { s with st := { s.st with
        evaluated := s.st.evaluated + 1
        terminal := s.st.terminal + (if G.over p then 1 else 0) } })

/-- The cutoff bookkeeping: `CutNodes++` and the bucket switch on the
1-based index of the cutting move. -/
def cutStats (i : Nat) (s : SearchState M) : SearchState M :=
  { s with st :=
      { s.st with
        cutNodes := s.st.cutNodes + 1
        cut0 := s.st.cut0 + (if i = 1 then 1 else 0)
        cut1 := s.st.cut1 + (if i = 2 then 1 else 0)
        cutSearch := s.st.cutSearch + (if i = 1 ∨ i = 2 then 0 else i + 1) } }

/-- The child-search step of the move loop: the first applied move (`i2 =
1`) is searched with the full window; later moves are first tried with the
null window `(-α-1, -α)` and re-searched with `(-β, -α)` exactly when
`-v > α ∧ -v < β` (the `usePVS := false` instance always searches the full
window, for comparison). -/
def pvsChild (usePVS : Bool)
    (search : Pos → List M → Int → Int → SearchState M →
      List M × Int × SearchState M)
    (child : Pos) (newpv : List M) (i2 : Nat) (α β : Int)
    (s : SearchState M) : List M × Int × SearchState M :=
  if usePVS ∧ 1 < i2 then
    let q1 := search child newpv (-α - 1) (-α) s
    if -q1.2.1 > α ∧ -q1.2.1 < β then search child newpv (-β) (-α) q1.2.2
    else q1
  else search child newpv (-β) (-α) s

/-- The move loop of `minimax`.  `search` is the one-ply-deeper search
(`ai.minimax(child, ply+1, depth-1, ...)`), `usePVS` selects between the
embedded code's null-window protocol (`true`) and the direct full-window
comparison search (`false`).  Moves the rule engine rejects are skipped;
`i` is the 1-based count of applied moves. -/
def searchLoop (G : Game Pos M) (usePVS : Bool)
    (search : Pos → List M → Int → Int → SearchState M →
      List M × Int × SearchState M)
    (p : Pos) :
    List M → Nat → List M → Bool → Int → Int → SearchState M →
      List M × Int × Bool × SearchState M
  | [], _, best, improved, α, _, s => (best, α, improved, s)
  | m :: rest, i, best, improved, α, β, s =>
    match G.move p m with
    | none => searchLoop G usePVS search p rest i best improved α β s
    | some child =>
      let i2 := i + 1
      let q := pvsChild usePVS search child best.tail i2 α β s
      let ms := q.1
      let v := -q.2.1
      let s2 := q.2.2
      let best2 := if best.isEmpty then m :: ms else best
      if v > α then
        if v ≥ β then (m :: ms, v, true, cutStats i2 s2)
        else searchLoop G usePVS search p rest i2 (m :: ms) true v β s2
      else searchLoop G usePVS search p rest i2 best2 improved α β s2

/-- The post-probe body of `minimax`: generate the (ordered) moves, run the
move loop, then store to the transposition table (`ttPut`), classifying the
bound and counting all-nodes. -/
def searchNode [Inhabited M] (G : Game Pos M) (usePVS : Bool)
    (search : Pos → List M → Int → Int → SearchState M →
      List M × Int × SearchState M)
    (p : Pos) (ply depth : Nat) (te : Option (TableEntry M))
    (pv : List M) (α β : Int) (s : SearchState M) :
    List M × Int × SearchState M :=
  let moves := G.genMoves p ply depth te pv
  let r := searchLoop G usePVS search p moves 0 pv false α β s
  let best := r.1
  let a := r.2.1
  let improved := r.2.2.1
  let s2 := r.2.2.2
  let entry : TableEntry M :=
    { hash := G.hash p
      depth := depth
      value := a
      bound := if !improved then Bound.upper
               else if a ≥ β then Bound.lower
               else Bound.exact
      m := best.headI }
  (best, a,
    { table := ttWrite s2.table (G.hash p) entry
      st := if !improved then { s2.st with allNodes := s2.st.allNodes + 1 }
            else s2.st })

/-- `minimax`: negamax alpha-beta with transposition probing (strict-window
usability plus proven-win override, stored move validated by `p.Move`) and
PVS null-window re-search for non-first children. -/
def minimax [Inhabited M] (G : Game Pos M) (cfg : MMConfig) :
    Nat → Pos → Nat → List M → Int → Int → SearchState M →
      List M × Int × SearchState M
  | 0, p, _, _, _, _, s => leafResult G p s
  | depth + 1, p, ply, pv, α, β, s =>
    if G.over p then leafResult G p s
    else
      let s1 : SearchState M :=
        { s with st := { s.st with visited := s.st.visited + 1 } }
      match ttGet cfg.noTable s1.table (G.hash p) with
      | some te =>
        if teSuffices te (depth + 1) α β then
          match G.move p te.m with
          | some _ =>
            ([te.m], te.value,
              { s1 with st := { s1.st with ttHits := s1.st.ttHits + 1 } })
          | none =>
            -- hash collision: the entry is discarded (`te = nil`)
            searchNode G true
              (fun c pv2 a b st => minimax G cfg depth c (ply + 1) pv2 a b st)
              p ply (depth + 1) none pv α β s1
        else
          searchNode G true
            (fun c pv2 a b st => minimax G cfg depth c (ply + 1) pv2 a b st)
            p ply (depth + 1) (some te) pv α β s1
      | none =>
        searchNode G true
          (fun c pv2 a b st => minimax G cfg depth c (ply + 1) pv2 a b st)
          p ply (depth + 1) none pv α β s1

/-- The direct full-window comparison search: identical to `minimax` except
that every child is searched with the full window `(-β, -α)` (the spec's
"a full-window search ... yield the same returned value", section 8). -/
def minimaxFW [Inhabited M] (G : Game Pos M) (cfg : MMConfig) :
    Nat → Pos → Nat → List M → Int → Int → SearchState M →
      List M × Int × SearchState M
  | 0, p, _, _, _, _, s => leafResult G p s
  | depth + 1, p, ply, pv, α, β, s =>
    if G.over p then leafResult G p s
    else
      let s1 : SearchState M :=
        { s with st := { s.st with visited := s.st.visited + 1 } }
      match ttGet cfg.noTable s1.table (G.hash p) with
      | some te =>
        if teSuffices te (depth + 1) α β then
          match G.move p te.m with
          | some _ =>
            ([te.m], te.value,
              { s1 with st := { s1.st with ttHits := s1.st.ttHits + 1 } })
          | none =>
            searchNode G false
              (fun c pv2 a b st => minimaxFW G cfg depth c (ply + 1) pv2 a b st)
              p ply (depth + 1) none pv α β s1
        else
          searchNode G false
            (fun c pv2 a b st => minimaxFW G cfg depth c (ply + 1) pv2 a b st)
            p ply (depth + 1) (some te) pv α β s1
      | none =>
        searchNode G false
          (fun c pv2 a b st => minimaxFW G cfg depth c (ply + 1) pv2 a b st)
          p ply (depth + 1) none pv α β s1

/-- The iterative-deepening loop of `Analyze`: for `i = 1, 2, ...` while
`i + base <= cfg.Depth`, reset the stats (keeping only `Depth`), search, and
stop on a proven win or on the time estimate (`timeStop`).  When the loop
body never runs, the seeded `(ms, v)` is returned with the state untouched.
The loop performs at most `cfg.depth` iterations; `fuel` is the structural
bound on that count (`Analyze` supplies `cfg.depth + 1`, which the
`i + base ≤ cfg.depth` exit always undercuts). -/
def deepenLoop [Inhabited M] (G : Game Pos M) (cfg : MMConfig)
    (timeStop : Nat → Bool) (p : Pos) (base : Nat) :
    Nat → Nat → List M → Int → SearchState M → List M × Int × SearchState M
  | 0, _, ms, v, s => (ms, v, s)
  | fuel + 1, i, ms, v, s =>
    if i + base ≤ cfg.depth then
      let sIter : SearchState M := { s with st := { depth := i + base } }
      let r := minimax G cfg (i + base) p 0 ms (minEval - 1) (maxEval + 1) sIter
      let ms2 := r.1
      let v2 := r.2.1
      let s2 := r.2.2
      if v2 > winThreshold ∨ v2 < -winThreshold then (ms2, v2, s2)
      else if i + base ≠ cfg.depth ∧ timeStop i then (ms2, v2, s2)
      else deepenLoop G cfg timeStop p base fuel (i + 1) ms2 v2 s2
    else (ms, v, s)

/-- `Analyze`: seed `(base, ms)` from an Exact root transposition entry,
then run the deepening loop from `i = 1` with the root window
`(minEval - 1, maxEval + 1)`.  Returns `(pv, value, final state)`; the Go
function returns the final state's `st` field as its stats. -/
def Analyze [Inhabited M] (G : Game Pos M) (cfg : MMConfig)
    (timeStop : Nat → Bool) (p : Pos) (s : SearchState M) :
    List M × Int × SearchState M :=
  let seed : Nat × List M :=
    match ttGet cfg.noTable s.table (G.hash p) with
    | some te => if te.bound = Bound.exact then (te.depth, [te.m]) else (0, [])
    | none => (0, [])
  deepenLoop G cfg timeStop p seed.1 (cfg.depth + 1) 1 seed.2 0 s

/-- `GetMove` returns `ms[0]` of `Analyze`'s pv; the out-of-range panic on
an empty pv is modelled as `none`. -/
def GetMove [Inhabited M] (G : Game Pos M) (cfg : MMConfig)
    (timeStop : Nat → Bool) (p : Pos) (s : SearchState M) : Option M :=
  (Analyze G cfg timeStop p s).1.head?

/-- The all-zero initial searcher state (`make([]tableEntry, tableSize)`
zero-fills the table). -/
def freshState [Inhabited M] : SearchState M :=
  { table := fun _ => default, st := {} }

/-! ## The static evaluator (`evaluate.go`)

`evaluate(w, m, p)` reads the position only through rule-engine accessors
and bitboard fields; `TakPosition` is the record of those reads.  The
bitboard primitives (`Popcount`, `Grow`, `Dimensions`) live in the external
`bitboard` package, absent from the sources; they are modelled from the
spec (section 4.1). -/

/-- `tak.Color`: `NoColor`, `White`, `Black`. -/
inductive Color where
  | noColor
  | white
  | black
deriving DecidableEq, Repr, Inhabited

/-- The rule-engine view of a position, as read by the evaluator:
`GameOver()`, `ToMove()`, `MoveNumber()`, `WhiteStones()`, `BlackStones()`,
`Size()`, the `White`/`Black`/`Caps`/`Standing` bitboards, the per-square
`Height`/`Stacks` arrays (the latter named `stackBits` here), and `Analysis()`'s group lists. -/
structure TakPosition where
  size : Nat
  over : Bool
  winner : Color
  toMove : Color
  moveNumber : Nat
  whiteStones : Nat
  blackStones : Nat
  white : Nat
  black : Nat
  caps : Nat
  standing : Nat
  height : List Nat
  stackBits : List Nat
  whiteGroups : List Nat
  blackGroups : List Nat
deriving DecidableEq, Repr

/-- `Weights` with its default values. -/
structure Weights where
  topFlat : Int
  standing : Int
  capstone : Int
  flat : Int
  captured : Int
  liberties : Int
  tempo : Int
  groups : List Int
deriving DecidableEq, Repr

/-- `DefaultWeights`. -/
def DefaultWeights : Weights :=
  { topFlat := 400, standing := 200, capstone := 300, flat := 100
    captured := 25, liberties := 20, tempo := 250
    groups := [0, 0, 0, 100, 300, 500, 0, 0] }

/-- Modelled from the spec: `bitboard.Popcount`, the population count of a
64-bit word (the `bitboard` package is not among the source files). -/
def popcount (n : Nat) : Nat :=
  if h : n = 0 then 0 else n % 2 + popcount (n / 2)
  termination_by n
  decreasing_by exact Nat.div_lt_self (Nat.pos_of_ne_zero h) one_lt_two

/-- All 64 bits set: the u64 domain of a bitboard. -/
def mask64 : Nat := (1 <<< 64) - 1

/-- Go `^b` on `uint64`: complement within 64 bits. -/
def compl64 (b : Nat) : Nat := b ^^^ mask64

/-- Go `a &^ b` (and-not). -/
def andnot (a b : Nat) : Nat := a &&& compl64 b

/-- The bitboard mask of column `x` on an `S`-wide board (bit `y*S+x` per
row `y`). -/
def colMask (S x : Nat) : Nat :=
  (List.range S).foldl (fun a y => a ||| (1 <<< (y * S + x))) 0

/-- Modelled from the spec: `bitboard.Grow(c, mask, b)` — the orthogonal
neighborhood `(shift_left|shift_right|shift_up|shift_down) & mask` with
row-safe horizontal shifts (section 4.1); arithmetic truncated to u64. -/
def grow (S : Nat) (mask b : Nat) : Nat :=
  (((andnot b (colMask S 0)) >>> 1 |||
    ((andnot b (colMask S (S - 1))) <<< 1 &&& mask64) |||
    (b <<< S &&& mask64) |||
    (b >>> S)) &&& mask)

/-- Modelled from the spec: `bitboard.Dimensions(c, g)` — width and height
of the bounding box of the set bits, `(0, 0)` for the empty bitboard
(section 4.1). -/
def dimensions (S : Nat) (g : Nat) : Nat × Nat :=
  let pts := (List.range (S * S)).filter (fun i => g.testBit i)
  match pts with
  | [] => (0, 0)
  | q :: qs =>
    let xs := (q :: qs).map (· % S)
    let ys := (q :: qs).map (· / S)
    (xs.foldl max 0 + 1 - xs.foldl min (q % S),
     ys.foldl max 0 + 1 - ys.foldl min (q / S))

/-- `scoreGroups`: sum `Groups[width] + Groups[height]` over the group
bitboards.  (Go indexes the fixed-size `Groups [8]int` array and would
panic past index 7; board sizes keep the dimensions within range.) -/
def scoreGroups (S : Nat) (gs : List Nat) (w : Weights) : Int :=
  gs.foldl (fun sc g =>
    let d := dimensions S g
    sc + w.groups.getD d.1 0 + w.groups.getD d.2 0) 0

/-- The stack-contents loop of `evaluate`: for each square of height `h > 1`
count carried flats per color (`Flat` weight) and credit the capturer with
`Captured * min(h-1, S-1)`.  Returns the (white, black) contributions. -/
def stackScores (size : Nat) (white : Nat) (flatW capturedW : Int)
    (height stackBits : List Nat) : Int × Int :=
  (List.range height.length).foldl
    (fun acc i =>
      let h := height.getD i 0
      if h ≤ 1 then acc
      else
        let sBits := stackBits.getD i 0 &&& ((1 <<< (h - 1)) - 1)
        let bf : Int := popcount sBits
        let wf : Int := (h : Int) - bf - 1
        let captured : Int := min ((h : Int) - 1) ((size : Int) - 1)
        let acc2 := (acc.1 + wf * flatW, acc.2 + bf * flatW)
        if white &&& (1 <<< i) ≠ 0 then (acc2.1 + captured * capturedW, acc2.2)
        else (acc2.1, acc2.2 + captured * capturedW))
    ((0 : Int), (0 : Int))

/-- `evaluate(w, m, p)`: terminal scoring, then the weighted sum of tempo,
top-piece material, stack contents, group shapes and road liberties,
returned side-relative. -/
def evaluate (w : Weights) (p : TakPosition) : Int :=
  if p.over then
    let pieces : Int :=
      if p.winner = Color.white then p.whiteStones else p.blackStones
    if p.winner = Color.noColor then 0
    else if p.winner = p.toMove then maxEval - p.moveNumber + pieces
    else minEval + p.moveNumber - pieces
  else
    let ws0 : Int := if p.toMove = Color.white then w.tempo else 0
    let bs0 : Int := if p.toMove = Color.white then 0 else w.tempo
    let ws1 := ws0 + popcount (andnot (andnot p.white p.caps) p.standing) * w.topFlat
    let bs1 := bs0 + popcount (andnot (andnot p.black p.caps) p.standing) * w.topFlat
    let ws2 := ws1 + popcount (p.white &&& p.standing) * w.standing
    let bs2 := bs1 + popcount (p.black &&& p.standing) * w.standing
    let ws3 := ws2 + popcount (p.white &&& p.caps) * w.capstone
    let bs3 := bs2 + popcount (p.black &&& p.caps) * w.capstone
    let stq := stackScores p.size p.white w.flat w.captured p.height p.stackBits
    let ws4 := ws3 + stq.1
    let bs4 := bs3 + stq.2
    let ws5 := ws4 + scoreGroups p.size p.whiteGroups w
    let bs5 := bs4 + scoreGroups p.size p.blackGroups w
    let wr := andnot p.white p.standing
    let br := andnot p.black p.standing
    let wl : Int := popcount (andnot (grow p.size (compl64 p.black) wr) wr)
    let bl : Int := popcount (andnot (grow p.size (compl64 p.white) br) br)
    let ws6 := ws5 + w.liberties * wl
    let bs6 := bs5 + w.liberties * bl
    if p.toMove = Color.white then ws6 - bs6 else bs6 - ws6

/-! ## The per-node move reordering of the older variant (`part_002`)

`part_002`'s `minimax` reorders the generated move slice in place before
iterating (lines 244-261): scan once; on the pv head swap it to index 0 and
stop if `m.Type < tak.SlideLeft`; otherwise keep scanning, swapping the
transposition entry's best move and same-target-square moves to the next
front slot `j`. -/

/-- `tak.MoveType`: the placement kinds precede the slide kinds
(`m.Type < tak.SlideLeft` tests for a placement). -/
inductive MoveType where
  | placeFlat
  | placeStanding
  | placeCapstone
  | slideLeft
  | slideRight
  | slideUp
  | slideDown
deriving DecidableEq, Repr

/-- The ordinal of a move kind in the `tak` package's constant order. -/
def MoveType.idx : MoveType → Nat
  | .placeFlat => 0
  | .placeStanding => 1
  | .placeCapstone => 2
  | .slideLeft => 3
  | .slideRight => 4
  | .slideUp => 5
  | .slideDown => 6

/-- `tak.Move`: coordinates, kind and slide drops (`Move.Equal` is
structural equality). -/
structure TakMove where
  x : Int
  y : Int
  type : MoveType
  slides : List Nat
deriving DecidableEq, Repr

/-- The scan of `part_002`'s reordering loop from index `i` with front slot
`j`: `pv0` is `pv[0]` and `ttm` is `te.ms[0]` of the matching transposition
entry, when present.  Go's `range` reads each element from the mutated
slice, so the scan operates on the current array.  `fuel` is the structural
bound on the remaining scan length (`reorder` supplies `moves.size`, and
swaps preserve the size, so the `i < moves.size` exit always undercuts
it). -/
def reorderAux (pv0 : TakMove) (ttm : Option TakMove) :
    Nat → Nat → Nat → Array TakMove → Array TakMove
  | 0, _, _, moves => moves
  | fuel + 1, i, j, moves =>
    if hi : i < moves.size then
      let m := moves[i]
      if m = pv0 then
        let moves2 := moves.swap ⟨0, Nat.lt_of_le_of_lt (Nat.zero_le i) hi⟩ ⟨i, hi⟩
        if m.type.idx < MoveType.slideLeft.idx then moves2
        else reorderAux pv0 ttm fuel (i + 1) j moves2
      else if hj : ttm = some m ∧ j < moves.size then
        reorderAux pv0 ttm fuel (i + 1) (j + 1) (moves.swap ⟨j, hj.2⟩ ⟨i, hi⟩)
      else if hj2 : j < moves.size ∧ m.x = pv0.x ∧ m.y = pv0.y then
        reorderAux pv0 ttm fuel (i + 1) (j + 1) (moves.swap ⟨j, hj2.1⟩ ⟨i, hi⟩)
      else reorderAux pv0 ttm fuel (i + 1) j moves
    else moves

/-- The reordering pass (`if len(pv) > 0 { j := 1; for i, m := range moves
{...} }`). -/
def reorder (pv : List TakMove) (ttm : Option TakMove)
    (moves : Array TakMove) : Array TakMove :=
  match pv with
  | [] => moves
  | pv0 :: _ => reorderAux pv0 ttm moves.size 0 1 moves

/-! ## Concrete rule-engine instances

Small finite games satisfying the rule-engine interface, used to evaluate
the searcher on explicit inputs.  Positions and moves are numbered; the
hash is the successor of the position number (so that no position collides
with the all-zero table entries), `move` looks the move number up in the
position's edge list, and the generator yields the edge-list order. -/

/-- Build a concrete `Game` on numbered positions from a terminal
predicate, edge lists and a static evaluation. -/
def mkGame (overQ : Nat → Bool) (edges : Nat → List (Nat × Nat))
    (evals : Nat → Int) : Game Nat Nat :=
  { over := overQ
    hash := fun p => p + 1
    move := fun p m => (edges p).lookup m
    evaluate := evals
    genMoves := fun p _ _ _ _ => (edges p).map (·.1) }

/-- Edges of the three-position game `GC6` (positions may repeat along a
line, as Tak positions can). -/
def edgesC6 : Nat → List (Nat × Nat)
  | 0 => [(1, 1), (2, 0)]
  | 1 => [(1, 2)]
  | 2 => [(1, 0)]
  | _ => []

/-- Static evaluations of `GC6`. -/
def evalsC6 : Nat → Int
  | 0 => 3
  | 1 => -2
  | 2 => -1
  | _ => 0

/-- A three-position game with a repeated position, on which the
null-window protocol and the direct full-window search disagree. -/
def GC6 : Game Nat Nat := mkGame (fun _ => false) edgesC6 evalsC6

/-! ## Helper lemmas -/

/-- If the child search's pv and value depend only on the child position,
so do `pvsChild`'s. -/
theorem pvsChild_agnostic {F : Pos → List M} {V : Pos → Int}
    {search : Pos → List M → Int → Int → SearchState M →
      List M × Int × SearchState M}
    (hs : ∀ c pv2 a2 b2 st, (search c pv2 a2 b2 st).1 = F c ∧
      (search c pv2 a2 b2 st).2.1 = V c)
    (u : Bool) (child : Pos) (newpv : List M) (i2 : Nat) (α β : Int)
    (s : SearchState M) :
    (pvsChild u search child newpv i2 α β s).1 = F child ∧
    (pvsChild u search child newpv i2 α β s).2.1 = V child := by
  unfold pvsChild
  split
  · simp only []
    split
    · exact hs child newpv (-β) (-α) _
    · exact hs child newpv (-α - 1) (-α) s
  · exact hs child newpv (-β) (-α) s

/-- When both child searches return state-independent pv and value
functions of the child alone, the two loops agree on `(best, α, improved)`
for any window policies and any starting states. -/
theorem searchLoop_agnostic {G : Game Pos M} {u1 u2 : Bool}
    {search1 search2 : Pos → List M → Int → Int → SearchState M →
      List M × Int × SearchState M}
    {F : Pos → List M} {V : Pos → Int}
    (h1 : ∀ c pv2 a2 b2 st, (search1 c pv2 a2 b2 st).1 = F c ∧
      (search1 c pv2 a2 b2 st).2.1 = V c)
    (h2 : ∀ c pv2 a2 b2 st, (search2 c pv2 a2 b2 st).1 = F c ∧
      (search2 c pv2 a2 b2 st).2.1 = V c)
    (p : Pos) (moves : List M) :
    ∀ (i : Nat) (best : List M) (improved : Bool) (α β : Int)
      (s1 s2 : SearchState M),
      ((searchLoop G u1 search1 p moves i best improved α β s1).1 =
        (searchLoop G u2 search2 p moves i best improved α β s2).1) ∧
      ((searchLoop G u1 search1 p moves i best improved α β s1).2.1 =
        (searchLoop G u2 search2 p moves i best improved α β s2).2.1) ∧
      ((searchLoop G u1 search1 p moves i best improved α β s1).2.2.1 =
        (searchLoop G u2 search2 p moves i best improved α β s2).2.2.1) := by
  induction moves with
  | nil => intro i best improved α β s1 s2; simp [searchLoop]
  | cons m rest ih =>
    intro i best improved α β s1 s2
    simp only [searchLoop]
    cases hmv : G.move p m with
    | none => exact ih i best improved α β s1 s2
    | some child =>
      simp only []
      obtain ⟨e11, e12⟩ := pvsChild_agnostic h1 u1 child best.tail (i+1) α β s1
      obtain ⟨e21, e22⟩ := pvsChild_agnostic h2 u2 child best.tail (i+1) α β s2
      rw [e11, e12, e21, e22]
      split
      · split
        · exact ⟨rfl, rfl, rfl⟩
        · exact ih (i+1) (m :: F child) true (-V child) β _ _
      · exact ih (i+1) (if best.isEmpty then m :: F child else best) improved α β _ _

/-- A depth-0 search returns the empty pv and the static evaluation,
whatever the window and state. -/
theorem minimax_zero_spec (G : Game Pos M) [Inhabited M] (cfg : MMConfig)
    (c : Pos) (ply : Nat) (pv2 : List M) (a b : Int) (st : SearchState M) :
    (minimax G cfg 0 c ply pv2 a b st).1 = [] ∧
    (minimax G cfg 0 c ply pv2 a b st).2.1 = G.evaluate c := by
  simp [minimax, leafResult]

/-- The full-window variant at depth 0, likewise. -/
theorem minimaxFW_zero_spec (G : Game Pos M) [Inhabited M] (cfg : MMConfig)
    (c : Pos) (ply : Nat) (pv2 : List M) (a b : Int) (st : SearchState M) :
    (minimaxFW G cfg 0 c ply pv2 a b st).1 = [] ∧
    (minimaxFW G cfg 0 c ply pv2 a b st).2.1 = G.evaluate c := by
  simp [minimaxFW, leafResult]

/-- `searchNode` values agree when both child searches are
state-independent functions of the child. -/
theorem searchNode_agnostic_value {G : Game Pos M} [Inhabited M]
    {u1 u2 : Bool}
    {search1 search2 : Pos → List M → Int → Int → SearchState M →
      List M × Int × SearchState M}
    {F : Pos → List M} {V : Pos → Int}
    (h1 : ∀ c pv2 a2 b2 st, (search1 c pv2 a2 b2 st).1 = F c ∧
      (search1 c pv2 a2 b2 st).2.1 = V c)
    (h2 : ∀ c pv2 a2 b2 st, (search2 c pv2 a2 b2 st).1 = F c ∧
      (search2 c pv2 a2 b2 st).2.1 = V c)
    (p : Pos) (ply depth : Nat) (te : Option (TableEntry M)) (pv : List M)
    (α β : Int) (s : SearchState M) :
    (searchNode G u1 search1 p ply depth te pv α β s).2.1 =
      (searchNode G u2 search2 p ply depth te pv α β s).2.1 := by
  unfold searchNode
  exact (searchLoop_agnostic h1 h2 p _ 0 pv false α β s s).2.1

/-- A deepening loop entered past the depth cap returns its arguments
unchanged. -/
theorem deepenLoop_stop {G : Game Pos M} [Inhabited M] {cfg : MMConfig}
    {ts : Nat → Bool} {p : Pos} {base i : Nat} {ms : List M} {v : Int}
    {s : SearchState M} (fuel : Nat) (h : cfg.depth < i + base) :
    deepenLoop G cfg ts p base fuel i ms v s = (ms, v, s) := by
  cases fuel with
  | zero => rfl
  | succ n =>
    unfold deepenLoop
    rw [if_neg (by omega)]

/-- On a terminal position the search returns the static evaluation with an
empty pv at every depth. -/
theorem minimax_over {G : Game Pos M} [Inhabited M] {cfg : MMConfig}
    {p : Pos} (hov : G.over p = true) (d : Nat) (ply : Nat) (pv : List M)
    (a b : Int) (s : SearchState M) :
    minimax G cfg d p ply pv a b s = leafResult G p s := by
  cases d with
  | zero => rfl
  | succ n => simp [minimax, hov]

/-- On a terminal position every iteration of the deepening loop returns
the empty pv and the static evaluation. -/
theorem deepen_over {G : Game Pos M} [Inhabited M] {cfg : MMConfig}
    {ts : Nat → Bool} {p : Pos} (hov : G.over p = true) :
    ∀ (fuel i : Nat) (ms : List M) (v : Int) (s : SearchState M),
      cfg.depth + 1 - i ≤ fuel → i ≤ cfg.depth →
      (deepenLoop G cfg ts p 0 fuel i ms v s).1 = [] ∧
      (deepenLoop G cfg ts p 0 fuel i ms v s).2.1 = G.evaluate p := by
  intro fuel
  induction fuel with
  | zero => intro i ms v s hf hi; omega
  | succ n ih =>
    intro i ms v s hf hi
    unfold deepenLoop
    rw [if_pos (by omega : i + 0 ≤ cfg.depth)]
    simp only [minimax_over hov, leafResult]
    split
    · exact ⟨rfl, rfl⟩
    · split
      · exact ⟨rfl, rfl⟩
      · rcases Nat.lt_or_ge i cfg.depth with hlt | hge
        · exact ih (i+1) [] (G.evaluate p) _ (by omega) (by omega)
        · rw [deepenLoop_stop n (by omega)]
          exact ⟨rfl, rfl⟩

/-- When the root transposition entry is Exact with depth at least
`cfg.Depth`, `Analyze` runs zero iterations: it returns the entry's move,
value `0`, and the state (table and stats field) untouched. -/
theorem analyze_cached_exact {G : Game Pos M} [Inhabited M] {cfg : MMConfig}
    {ts : Nat → Bool} {p : Pos} {s : SearchState M} {te : TableEntry M}
    (hte : ttGet cfg.noTable s.table (G.hash p) = some te)
    (hex : te.bound = Bound.exact) (hd : cfg.depth ≤ te.depth) :
    Analyze G cfg ts p s = ([te.m], 0, s) := by
  unfold Analyze
  rw [hte]
  simp only [hex, if_pos]
  exact deepenLoop_stop (cfg.depth + 1) (by omega)

/-- `maxEval` as a numeral. -/
theorem maxEval_eq : maxEval = 1073741824 := by decide

/-- `minEval` as a numeral. -/
theorem minEval_eq : minEval = -1073741824 := by decide

/-- A terminal winning position: White has completed a road at move 10
with 16 stones left in reserve (a board-plausible configuration). -/
def pT : TakPosition :=
  { size := 5, over := true, winner := Color.white, toMove := Color.white
    moveNumber := 10, whiteStones := 16, blackStones := 14
    white := 0, black := 0, caps := 0, standing := 0
    height := [], stackBits := [], whiteGroups := [], blackGroups := [] }

/-- A rule-engine instance over `TakPosition` values wired to the default
evaluator, used to run the searcher on terminal positions. -/
def GT : Game TakPosition Nat :=
  { over := fun p => p.over
    hash := fun _ => 1
    move := fun _ _ => none
    evaluate := evaluate DefaultWeights
    genMoves := fun _ _ _ _ _ => [] }

/-- Edges of `GT9`: one legal move from the root into a terminal
position. -/
def edgesT9 : Nat → List (Nat × Nat)
  | 0 => [(1, 1)]
  | _ => []

/-- A two-position game: the root's single move reaches a lost terminal
position of score `-5`, so a depth-1 search values the root at `5`. -/
def GT9 : Game Nat Nat :=
  mkGame (fun p => p == 1) edgesT9 (fun p => if p = 1 then -5 else 0)

/-- The `visited + evaluated` total, used to show that every search call
does real work. -/
def sve (s : SearchState M) : Nat := s.st.visited + s.st.evaluated

theorem cutStats_sve (i : Nat) (s : SearchState M) : sve (cutStats i s) = sve s := rfl

theorem pvsChild_sve {search : Pos → List M → Int → Int → SearchState M →
      List M × Int × SearchState M}
    (hs : ∀ c pv2 a b st, sve st + 1 ≤ sve (search c pv2 a b st).2.2)
    (u : Bool) (child : Pos) (newpv : List M) (i2 : Nat) (α β : Int)
    (s : SearchState M) :
    sve s + 1 ≤ sve (pvsChild u search child newpv i2 α β s).2.2 := by
  unfold pvsChild
  split
  · simp only []
    split
    · have h1 := hs child newpv (-α - 1) (-α) s
      have h2 := hs child newpv (-β) (-α)
        (search child newpv (-α - 1) (-α) s).2.2
      omega
    · exact hs child newpv (-α - 1) (-α) s
  · exact hs child newpv (-β) (-α) s

theorem searchLoop_sve {G : Game Pos M} {u : Bool}
    {search : Pos → List M → Int → Int → SearchState M →
      List M × Int × SearchState M}
    (hs : ∀ c pv2 a b st, sve st + 1 ≤ sve (search c pv2 a b st).2.2)
    (p : Pos) (moves : List M) :
    ∀ (i : Nat) (best : List M) (improved : Bool) (α β : Int)
      (s : SearchState M),
      sve s ≤ sve (searchLoop G u search p moves i best improved α β s).2.2.2 := by
  induction moves with
  | nil => intro i best improved α β s; simp [searchLoop]
  | cons m rest ih =>
    intro i best improved α β s
    simp only [searchLoop]
    cases hmv : G.move p m with
    | none => exact ih i best improved α β s
    | some child =>
      simp only []
      have hq := pvsChild_sve hs u child best.tail (i+1) α β s
      split
      · split
        · rw [cutStats_sve]; omega
        · have := ih (i+1) (m :: (pvsChild u search child best.tail (i+1) α β s).1)
            true (-(pvsChild u search child best.tail (i+1) α β s).2.1) β
            (pvsChild u search child best.tail (i+1) α β s).2.2
          omega
      · have := ih (i+1)
          (if best.isEmpty then
            m :: (pvsChild u search child best.tail (i+1) α β s).1 else best)
          improved α β (pvsChild u search child best.tail (i+1) α β s).2.2
        omega

theorem searchLoop_sve_strict {G : Game Pos M} {u : Bool}
    {search : Pos → List M → Int → Int → SearchState M →
      List M × Int × SearchState M}
    (hs : ∀ c pv2 a b st, sve st + 1 ≤ sve (search c pv2 a b st).2.2)
    (p : Pos) (moves : List M) :
    ∀ (i : Nat) (best : List M) (improved : Bool) (α β : Int)
      (s : SearchState M),
      (∃ m ∈ moves, (G.move p m).isSome) →
      sve s + 1 ≤
        sve (searchLoop G u search p moves i best improved α β s).2.2.2 := by
  induction moves with
  | nil => intro i best improved α β s hex; simp at hex
  | cons m rest ih =>
    intro i best improved α β s hex
    simp only [searchLoop]
    cases hmv : G.move p m with
    | none =>
      apply ih i best improved α β s
      rcases hex with ⟨m2, hm2, happ⟩
      rcases List.mem_cons.mp hm2 with rfl | hm2r
      · rw [hmv] at happ; simp at happ
      · exact ⟨m2, hm2r, happ⟩
    | some child =>
      simp only []
      have hq := pvsChild_sve hs u child best.tail (i+1) α β s
      split
      · split
        · rw [cutStats_sve]; omega
        · have := searchLoop_sve (G := G) (u := u) hs p rest (i+1)
            (m :: (pvsChild u search child best.tail (i+1) α β s).1)
            true (-(pvsChild u search child best.tail (i+1) α β s).2.1) β
            (pvsChild u search child best.tail (i+1) α β s).2.2
          omega
      · have := searchLoop_sve (G := G) (u := u) hs p rest (i+1)
          (if best.isEmpty then
            m :: (pvsChild u search child best.tail (i+1) α β s).1 else best)
          improved α β (pvsChild u search child best.tail (i+1) α β s).2.2
        omega

theorem searchNode_sve {G : Game Pos M} [Inhabited M] {u : Bool}
    {search : Pos → List M → Int → Int → SearchState M →
      List M × Int × SearchState M}
    (hs : ∀ c pv2 a b st, sve st + 1 ≤ sve (search c pv2 a b st).2.2)
    (p : Pos) (ply depth : Nat) (te : Option (TableEntry M)) (pv : List M)
    (α β : Int) (s : SearchState M) :
    sve s ≤ sve (searchNode G u search p ply depth te pv α β s).2.2 ∧
    ((∃ m ∈ G.genMoves p ply depth te pv, (G.move p m).isSome) →
      sve s + 1 ≤ sve (searchNode G u search p ply depth te pv α β s).2.2) := by
  unfold searchNode
  have hst : ∀ (s2 : SearchState M) (improved : Bool) (e : TableEntry M),
      sve ({ table := ttWrite s2.table (G.hash p) e
             st := if !improved then
               { s2.st with allNodes := s2.st.allNodes + 1 } else s2.st } :
        SearchState M) = sve s2 := by
    intro s2 improved e
    unfold sve
    split <;> rfl
  constructor
  · simp only []
    rw [hst]
    exact searchLoop_sve (G := G) (u := u) hs p _ 0 pv false α β s
  · intro hex
    simp only []
    rw [hst]
    exact searchLoop_sve_strict (G := G) (u := u) hs p _ 0 pv false α β s hex

theorem minimax_sve {G : Game Pos M} [Inhabited M] {cfg : MMConfig} :
    ∀ (d : Nat) (p : Pos) (ply : Nat) (pv : List M) (a b : Int)
      (s : SearchState M),
      sve s + 1 ≤ sve (minimax G cfg d p ply pv a b s).2.2 := by
  intro d
  induction d with
  | zero =>
    intro p ply pv a b s
    simp only [minimax, leafResult, sve]
    omega
  | succ n ih =>
    intro p ply pv a b s
    simp only [minimax]
    split
    · simp only [leafResult, sve]; omega
    · cases hte : ttGet cfg.noTable s.table (G.hash p) with
      | none =>
        have h := (searchNode_sve (G := G) (u := true)
          (fun c pv2 a2 b2 st => ih c (ply+1) pv2 a2 b2 st) p ply (n+1) none pv a b
          { s with st := { s.st with visited := s.st.visited + 1 } }).1
        simp only [sve] at h ⊢
        omega
      | some te =>
        simp only []
        split
        · cases hmv : G.move p te.m with
          | none =>
            have h := (searchNode_sve (G := G) (u := true)
              (fun c pv2 a2 b2 st => ih c (ply+1) pv2 a2 b2 st) p ply (n+1) none pv a b
              { s with st := { s.st with visited := s.st.visited + 1 } }).1
            simp only [sve] at h ⊢
            omega
          | some c =>
            simp only [sve]
            omega
        · have h := (searchNode_sve (G := G) (u := true)
            (fun c pv2 a2 b2 st => ih c (ply+1) pv2 a2 b2 st) p ply (n+1) (some te) pv a b
            { s with st := { s.st with visited := s.st.visited + 1 } }).1
          simp only [sve] at h ⊢
          omega

theorem searchLoop_none {G : Game Pos M} {u : Bool}
    {search : Pos → List M → Int → Int → SearchState M →
      List M × Int × SearchState M}
    {p : Pos} {moves : List M}
    (hnone : ∀ m ∈ moves, G.move p m = none) :
    ∀ (i : Nat) (best : List M) (improved : Bool) (α β : Int)
      (s : SearchState M),
      searchLoop G u search p moves i best improved α β s =
        (best, α, improved, s) := by
  induction moves with
  | nil => intro i best improved α β s; rfl
  | cons m rest ih =>
    intro i best improved α β s
    simp only [searchLoop]
    rw [hnone m (List.mem_cons_self m rest)]
    exact ih (fun m2 h2 => hnone m2 (List.mem_cons_of_mem m h2)) i best improved α β s

theorem searchNode_none {G : Game Pos M} [Inhabited M] {u : Bool}
    {search : Pos → List M → Int → Int → SearchState M →
      List M × Int × SearchState M}
    {p : Pos} {ply depth : Nat} {te : Option (TableEntry M)} {pv : List M}
    {α β : Int} {s : SearchState M}
    (hnone : ∀ m ∈ G.genMoves p ply depth te pv, G.move p m = none) :
    searchNode G u search p ply depth te pv α β s =
      (pv, α,
        { table := ttWrite s.table (G.hash p)
            { hash := G.hash p, depth := depth, value := α,
              bound := Bound.upper, m := pv.headI }
          st := { s.st with allNodes := s.st.allNodes + 1 } }) := by
  simp only [searchNode]
  rw [searchLoop_none hnone]
  rfl

/-- Edges of `GW1`: one move from the root into a terminal position. -/
def edgesW1 : Nat → List (Nat × Nat)
  | 0 => [(1, 9)]
  | _ => []

/-- A two-position game whose root search (window `(0,10)`, depth 1)
values the root at `7`. -/
def GW1 : Game Nat Nat :=
  mkGame (fun p => p == 9) edgesW1 (fun p => if p = 9 then -7 else 0)

/-- A searcher state holding an Exact, depth-3 entry of value `7` for the
root of `GW1`. -/
def sW1 : SearchState Nat :=
  { table := ttWrite (fun _ => default) 1 ⟨1, 3, 7, Bound.exact, 1⟩, st := {} }

/-- A searcher state holding an Upper, depth-5 entry of value `0` for the
root of `GW1` — usable by the spec's non-strict `te.value ≤ α` condition at
`α = 0` but not by the code's strict `te.value < α`. -/
def sC1 : SearchState Nat :=
  { table := ttWrite (fun _ => default) 1 ⟨1, 5, 0, Bound.upper, 1⟩, st := {} }

/-! ## Claims -/

/-- A node that proceeds past the transposition probe cannot end with the
probe path's exact stats: with an applicable move it performs at least one
further evaluation or visit, and with none it leaves `ttHits` alone. -/
theorem searchNode_st_ne {G : Game Pos M} [Inhabited M]
    {search : Pos → List M → Int → Int → SearchState M →
      List M × Int × SearchState M}
    (hs : ∀ c pv2 a b st, sve st + 1 ≤ sve (search c pv2 a b st).2.2)
    (p : Pos) (ply depth : Nat) (te2 : Option (TableEntry M)) (pv : List M)
    (α β : Int) (s : SearchState M) :
    (searchNode G true search p ply depth te2 pv α β
        { s with st := { s.st with visited := s.st.visited + 1 } }).2.2.st ≠
      { s.st with visited := s.st.visited + 1, ttHits := s.st.ttHits + 1 } := by
  intro heq
  by_cases hex : ∃ m ∈ G.genMoves p ply depth te2 pv, (G.move p m).isSome
  · have h := (searchNode_sve (G := G) (u := true) hs p ply depth te2 pv α β
      { s with st := { s.st with visited := s.st.visited + 1 } }).2 hex
    have h2 : sve (searchNode G true search p ply depth te2 pv α β
        { s with st := { s.st with visited := s.st.visited + 1 } }).2.2 =
        s.st.visited + 1 + s.st.evaluated := by
      unfold sve
      rw [heq]
    simp only [sve] at h h2
    omega
  · push_neg at hex
    have hnone : ∀ m ∈ G.genMoves p ply depth te2 pv, G.move p m = none := by
      intro m hm
      have hh := hex m hm
      cases hmv : G.move p m with
      | none => rfl
      | some c => rw [hmv] at hh; simp at hh
    rw [searchNode_none hnone] at heq
    have h3 := congrArg Stats.ttHits heq
    simp at h3

/-- C1 (amended).  At a non-terminal node of nonzero remaining depth whose
transposition slot verifies the hash, the search returns the entry's single
stored move `[te.m]` with the stored value and increments `tt_hits` (having
counted the visit, and leaving the table untouched) if and only if the
stored move applies to the position and either `te.depth ≥ d` with
(`Exact`, or `Upper ∧ te.value < α`, or `Lower ∧ te.value > β` — strict
inequalities), or `Exact ∧ |te.value| > WinThreshold`. -/
theorem claim1_amended {G : Game Pos M} [Inhabited M] {cfg : MMConfig}
    {p : Pos} {depth ply : Nat} {pv : List M} {α β : Int} {s : SearchState M}
    {te : TableEntry M}
    (hd : depth ≠ 0) (hov : G.over p = false)
    (hte : ttGet cfg.noTable s.table (G.hash p) = some te) :
    ((minimax G cfg depth p ply pv α β s).1 = [te.m] ∧
     (minimax G cfg depth p ply pv α β s).2.1 = te.value ∧
     (minimax G cfg depth p ply pv α β s).2.2.st =
       { s.st with visited := s.st.visited + 1, ttHits := s.st.ttHits + 1 } ∧
     (minimax G cfg depth p ply pv α β s).2.2.table = s.table) ↔
    (teSuffices te depth α β = true ∧ (G.move p te.m).isSome = true) := by
  obtain ⟨d, rfl⟩ := Nat.exists_eq_succ_of_ne_zero hd
  have hs := fun c pv2 a2 b2 st =>
    @minimax_sve Pos M G _ cfg d c (ply + 1) pv2 a2 b2 st
  by_cases hsuf : teSuffices te (d+1) α β = true
  · cases happ : G.move p te.m with
    | some c =>
      have hmini : minimax G cfg (d+1) p ply pv α β s =
          ([te.m], te.value,
            { s with st := { s.st with visited := s.st.visited + 1, ttHits := s.st.ttHits + 1 } }) := by
        simp only [minimax]
        rw [if_neg (by simp [hov]), hte]
        simp only [hsuf, if_pos, happ]
      constructor
      · intro _; exact ⟨hsuf, by simp [happ]⟩
      · intro _; rw [hmini]; exact ⟨rfl, rfl, rfl, rfl⟩
    | none =>
      have hmini : minimax G cfg (d+1) p ply pv α β s =
          searchNode G true
            (fun c2 pv2 a2 b2 st => minimax G cfg d c2 (ply + 1) pv2 a2 b2 st)
            p ply (d+1) none pv α β
            { s with st := { s.st with visited := s.st.visited + 1 } } := by
        simp only [minimax]
        rw [if_neg (by simp [hov]), hte]
        simp only [hsuf, if_pos, happ]
      constructor
      · intro hL
        exact absurd (hmini ▸ hL.2.2.1)
          (searchNode_st_ne hs p ply (d+1) none pv α β s)
      · intro hR
        exact absurd hR.2 (by simp [happ])
  · have hmini : minimax G cfg (d+1) p ply pv α β s =
        searchNode G true
          (fun c2 pv2 a2 b2 st => minimax G cfg d c2 (ply + 1) pv2 a2 b2 st)
          p ply (d+1) (some te) pv α β
          { s with st := { s.st with visited := s.st.visited + 1 } } := by
      simp only [minimax]
      rw [if_neg (by simp [hov]), hte]
      simp [hsuf]
    constructor
    · intro hL
      exact absurd (hmini ▸ hL.2.2.1)
        (searchNode_st_ne hs p ply (d+1) (some te) pv α β s)
    · intro hR
      exact absurd hR.1 hsuf

/-- C1 (witness).  The amended equivalence at the concrete game `GW1` with
an Exact depth-3 entry: the probe fires and returns the stored move and
value with `tt_hits` incremented. -/
theorem claim1_amended_witness :
    (minimax GW1 { depth := 3 } 1 0 0 [] 0 10 sW1).1 = [1] ∧
    (minimax GW1 { depth := 3 } 1 0 0 [] 0 10 sW1).2.1 = 7 ∧
    (minimax GW1 { depth := 3 } 1 0 0 [] 0 10 sW1).2.2.st =
      { sW1.st with visited := sW1.st.visited + 1, ttHits := sW1.st.ttHits + 1 } ∧
    (minimax GW1 { depth := 3 } 1 0 0 [] 0 10 sW1).2.2.table = sW1.table :=
  (@claim1_amended Nat Nat GW1 _ { depth := 3 } 0 1 0 [] 0 10 sW1
    ⟨1, 3, 7, Bound.exact, 1⟩ (by decide) rfl
    (by decide)).mpr ⟨by decide, by decide⟩

/-- C1 (counterexample).  The claim's condition uses the non-strict
`te.value ≤ α`.  On `GW1` with the stored root entry
`⟨depth 5, value 0, Upper⟩` and window `(0, 10)`, the entry satisfies the
claim's condition (`5 ≥ 1` and `0 ≤ α = 0`), yet the search does not prune:
`tt_hits` stays `0` and the returned value is `7`, not the stored `0`. -/
theorem claim1_counterexample :
    ttGet false sC1.table (GW1.hash 0) = some ⟨1, 5, 0, Bound.upper, 1⟩ ∧
    (1 ≤ 5 ∧ (0 : Int) ≤ 0) ∧
    (minimax GW1 { depth := 3 } 1 0 0 [] 0 10 sC1).2.2.st.ttHits = 0 ∧
    (minimax GW1 { depth := 3 } 1 0 0 [] 0 10 sC1).2.1 = 7 ∧ ((7 : Int) ≠ 0) := by
  refine ⟨by decide, ⟨by decide, by decide⟩, by decide, by decide, by decide⟩


/-- C2 (counterexample).  The claim asserts `|eval| ≤ MaxEval = 2^30`
including on terminal positions, and that every search value lies in
`[MinEval, MaxEval]`.  On the terminal position `pT` (winner to move, move
number 10, 16 reserve stones) the evaluator returns `MaxEval + 6 > MaxEval`,
and a depth-1 `Analyze` returns that same out-of-range value. -/
theorem claim2_counterexample :
    evaluate DefaultWeights pT = maxEval + 6 ∧ maxEval + 6 > maxEval ∧
    (Analyze GT { depth := 1 } (fun _ => false) pT freshState).2.1 =
      maxEval + 6 := by
  refine ⟨by decide, by decide, by decide⟩

/-- C2 (amended).  On terminal positions with a winner the evaluator
returns exactly `MaxEval - move_number + winner_stones` (win for the side
to move) or `MinEval + move_number - winner_stones` (loss), and these lie
within `[MinEval, MaxEval]` precisely when the winner's stone count does
not exceed the move number; the claimed bound fails otherwise. -/
theorem claim2_amended (w : Weights) (p : TakPosition) (hov : p.over = true)
    (hw : p.winner ≠ Color.noColor) :
    (p.winner = p.toMove →
      evaluate w p = maxEval - p.moveNumber +
        (if p.winner = Color.white then (p.whiteStones : Int) else p.blackStones) ∧
      (evaluate w p ≤ maxEval ↔
        (if p.winner = Color.white then (p.whiteStones : Int) else p.blackStones) ≤
          (p.moveNumber : Int))) ∧
    (p.winner ≠ p.toMove →
      evaluate w p = minEval + p.moveNumber -
        (if p.winner = Color.white then (p.whiteStones : Int) else p.blackStones) ∧
      (minEval ≤ evaluate w p ↔
        (if p.winner = Color.white then (p.whiteStones : Int) else p.blackStones) ≤
          (p.moveNumber : Int))) := by
  unfold evaluate
  rw [if_pos hov, if_neg hw]
  constructor
  · intro heq
    rw [if_pos heq]
    constructor
    · rfl
    · rw [maxEval_eq]
      split <;> omega
  · intro hne
    rw [if_neg hne]
    constructor
    · rfl
    · rw [minEval_eq]
      split <;> omega

/-- C2 (witness).  The amended theorem applied to the default weights and
the concrete terminal position `pT`, whose score exceeds `MaxEval`. -/
theorem claim2_amended_witness :
    evaluate DefaultWeights pT = maxEval - (pT.moveNumber : Int) +
      (if pT.winner = Color.white then (pT.whiteStones : Int) else pT.blackStones) ∧
    ¬(evaluate DefaultWeights pT ≤ maxEval) := by
  have h := (claim2_amended DefaultWeights pT rfl (by decide)).1 rfl
  exact ⟨h.1, fun hle => absurd (h.2.mp hle) (by decide)⟩

/-- C5 (confirmed).  On every terminal position the evaluator returns 0
for a draw, `MaxEval - move_number + winner_stones` when the winner is the
side to move, and `MinEval + move_number - winner_stones` otherwise, where
`winner_stones` is the winning color's stone count. -/
theorem claim5_terminal_evaluation (w : Weights) (p : TakPosition)
    (hov : p.over = true) :
    (p.winner = Color.noColor → evaluate w p = 0) ∧
    (p.winner ≠ Color.noColor → p.winner = p.toMove →
      evaluate w p = maxEval - p.moveNumber +
        (if p.winner = Color.white then (p.whiteStones : Int) else p.blackStones)) ∧
    (p.winner ≠ Color.noColor → p.winner ≠ p.toMove →
      evaluate w p = minEval + p.moveNumber -
        (if p.winner = Color.white then (p.whiteStones : Int) else p.blackStones)) := by
  unfold evaluate
  rw [if_pos hov]
  refine ⟨fun h => by rw [if_pos h], fun h1 h2 => ?_, fun h1 h2 => ?_⟩
  · rw [if_neg h1, if_pos h2]
  · rw [if_neg h1, if_neg h2]

/-- C5 (witness).  The terminal formula evaluated at the concrete winning
position `pT`. -/
theorem claim5_terminal_evaluation_witness :
    evaluate DefaultWeights pT = maxEval - (pT.moveNumber : Int) +
      (if pT.winner = Color.white then (pT.whiteStones : Int) else pT.blackStones) := by
  exact (claim5_terminal_evaluation DefaultWeights pT rfl).2.1 (by decide) rfl

/-- C10 (counterexample).  The claim asserts that on a terminal input with
a fresh table `Analyze` returns the empty pv paired with the evaluator's
terminal score.  With `Depth = 0` the deepening loop never runs: the pv is
indeed empty and `GetMove` still fails, but the value returned is the
initial `0`, not the terminal score (`evaluate pT ≠ 0`). -/
theorem claim10_counterexample :
    (Analyze GT { depth := 0 } (fun _ => false) pT freshState).1 = [] ∧
    (Analyze GT { depth := 0 } (fun _ => false) pT freshState).2.1 = 0 ∧
    evaluate DefaultWeights pT ≠ 0 ∧ GT.over pT = true := by
  refine ⟨by decide, by decide, by decide, rfl⟩

/-- C10 (amended).  For a terminal input position, a table with no entry at
the root hash, and a searcher configured to search at least one ply,
`Analyze` returns the empty pv paired with the evaluator's terminal score,
and `GetMove`'s access of `pv[0]` fails (modelled as `none`) rather than
returning a move. -/
theorem claim10_amended {G : Game Pos M} [Inhabited M] {cfg : MMConfig}
    {ts : Nat → Bool} {p : Pos} {s : SearchState M}
    (hov : G.over p = true)
    (hroot : ttGet cfg.noTable s.table (G.hash p) = none)
    (hd : 1 ≤ cfg.depth) :
    (Analyze G cfg ts p s).1 = [] ∧
    (Analyze G cfg ts p s).2.1 = G.evaluate p ∧
    GetMove G cfg ts p s = none := by
  have key : (Analyze G cfg ts p s).1 = [] ∧
      (Analyze G cfg ts p s).2.1 = G.evaluate p := by
    unfold Analyze
    rw [hroot]
    exact deepen_over hov (cfg.depth + 1) 1 [] 0 s (by omega) hd
  refine ⟨key.1, key.2, ?_⟩
  unfold GetMove
  rw [key.1]
  rfl

/-- C10 (witness).  The amended theorem at the concrete terminal position
`pT` with a fresh table and `Depth = 1`. -/
theorem claim10_amended_witness :
    GT.over pT = true ∧
    (Analyze GT { depth := 1 } (fun _ => false) pT freshState).1 = [] ∧
    (Analyze GT { depth := 1 } (fun _ => false) pT freshState).2.1 =
      evaluate DefaultWeights pT ∧
    GetMove GT { depth := 1 } (fun _ => false) pT freshState = none := by
  have h := @claim10_amended TakPosition Nat GT _ { depth := 1 }
    (fun _ => false) pT freshState
    rfl (by decide) (by decide)
  exact ⟨rfl, h.1, h.2.1, h.2.2⟩

/-- C3 (counterexample).  The claim asserts that two successive
`analyze(p, ∞)` calls on a fresh searcher return equal `(pv, value)`.  On
`GT9` with `Depth = 1` the first call returns value `5` and stores an Exact
depth-1 root entry; the second call then runs zero deepening iterations and
returns the never-assigned value `0 ≠ 5`. -/
theorem claim3_counterexample :
    (Analyze GT9 { depth := 1 } (fun _ => false) 0 freshState).2.1 = 5 ∧
    (Analyze GT9 { depth := 1 } (fun _ => false) 0
        (Analyze GT9 { depth := 1 } (fun _ => false) 0 freshState).2.2).2.1 = 0 ∧
    (5 : Int) ≠ 0 := by
  refine ⟨by decide, by decide, by decide⟩

/-- C3 (amended).  Outputs are a pure function of `(position, generator
order, Depth, table state at entry)` by construction, but two successive
calls do not return equal `(pv, value)`: whenever the first call leaves an
Exact root entry of depth at least `cfg.Depth`, the second call returns
that entry's single stored move paired with value `0` (not the first
call's value), leaving the state untouched. -/
theorem claim3_amended {G : Game Pos M} [Inhabited M] {cfg : MMConfig}
    {ts1 ts2 : Nat → Bool} {p : Pos} {s : SearchState M} {te : TableEntry M}
    (hte : ttGet cfg.noTable (Analyze G cfg ts1 p s).2.2.table (G.hash p) =
      some te)
    (hex : te.bound = Bound.exact) (hd : cfg.depth ≤ te.depth) :
    Analyze G cfg ts2 p (Analyze G cfg ts1 p s).2.2 =
      ([te.m], 0, (Analyze G cfg ts1 p s).2.2) :=
  analyze_cached_exact hte hex hd

/-- C3 (witness).  The amended theorem at the concrete game `GT9`: the
second of two successive depth-1 calls returns the cached root move with
value `0`. -/
theorem claim3_amended_witness :
    Analyze GT9 { depth := 1 } (fun _ => false) 0
        (Analyze GT9 { depth := 1 } (fun _ => false) 0 freshState).2.2 =
      ([(1 : Nat)], 0,
        (Analyze GT9 { depth := 1 } (fun _ => false) 0 freshState).2.2) :=
  @claim3_amended Nat Nat GT9 _ { depth := 1 } (fun _ => false) (fun _ => false)
    0 freshState ⟨1, 1, 5, Bound.exact, 1⟩ (by decide) rfl (by decide)

/-- C9 (counterexample).  The claim asserts that the zero-iteration cached
path returns freshly zeroed stats.  On `GT9` the second call returns the
first call's final stats unchanged — in particular `evaluated = 1 ≠ 0`. -/
theorem claim9_counterexample :
    (Analyze GT9 { depth := 1 } (fun _ => false) 0
        (Analyze GT9 { depth := 1 } (fun _ => false) 0 freshState).2.2).2.2.st =
      (Analyze GT9 { depth := 1 } (fun _ => false) 0 freshState).2.2.st ∧
    (Analyze GT9 { depth := 1 } (fun _ => false) 0 freshState).2.2.st.evaluated
      = 1 := by
  refine ⟨by decide, by decide⟩

/-- C9 (amended).  If at entry the transposition entry matching the root
hash is Exact with depth at least `cfg.Depth`, the deepening loop runs zero
iterations and `Analyze` returns the entry's stored move (a one-move pv)
with value `0` — not the entry's stored value — and the searcher state,
including the stats field left over from the previous call, unchanged. -/
theorem claim9_amended {G : Game Pos M} [Inhabited M] {cfg : MMConfig}
    {ts : Nat → Bool} {p : Pos} {s : SearchState M} {te : TableEntry M}
    (hte : ttGet cfg.noTable s.table (G.hash p) = some te)
    (hex : te.bound = Bound.exact) (hd : cfg.depth ≤ te.depth) :
    Analyze G cfg ts p s = ([te.m], 0, s) ∧
    (Analyze G cfg ts p s).2.2.st = s.st := by
  have h := @analyze_cached_exact Pos M G _ cfg ts p s te hte hex hd
  exact ⟨h, by rw [h]⟩

/-- C9 (witness).  The amended theorem at `GT9`, with the time oracle that
always fires (irrelevant on the zero-iteration path). -/
theorem claim9_amended_witness :
    Analyze GT9 { depth := 1 } (fun _ => true) 0
        (Analyze GT9 { depth := 1 } (fun _ => false) 0 freshState).2.2 =
      ([(1 : Nat)], 0,
        (Analyze GT9 { depth := 1 } (fun _ => false) 0 freshState).2.2) :=
  (@claim9_amended Nat Nat GT9 _ { depth := 1 } (fun _ => true) 0
    (Analyze GT9 { depth := 1 } (fun _ => false) 0 freshState).2.2
    ⟨1, 1, 5, Bound.exact, 1⟩ (by decide) rfl (by decide)).1

/-- C6 (counterexample).  The claim asserts that the value a node finally
returns under the null-window protocol of section 4.6 equals the value a
direct full-window search would have produced.  On the concrete game `GC6`
(three positions, lines can revisit a position), searching the root at
depth 3 with window `(0, 10)` from a fresh table, the embedded search
returns value `0` while the direct full-window search returns `1`: a
null-window pass stores transposition entries that later probes of the
repeated position answer from, and the values diverge. -/
theorem claim6_counterexample :
    (minimax GC6 { depth := 3 } 3 0 0 [] 0 10 freshState).2.1 = 0 ∧
    (minimaxFW GC6 { depth := 3 } 3 0 0 [] 0 10 freshState).2.1 = 1 := by
  constructor <;> decide

/-- C6 (amended).  Null-window equivalence holds for nodes whose children
are searched at depth 0: at depth 1 the embedded search and the direct
full-window search return the same value for every game, window, pv and
state.  (At greater depths the values can differ, `claim6_counterexample`.) -/
theorem claim6_amended (G : Game Pos M) [Inhabited M] (cfg : MMConfig)
    (p : Pos) (ply : Nat) (pv : List M) (α β : Int) (s : SearchState M) :
    (minimax G cfg 1 p ply pv α β s).2.1 =
      (minimaxFW G cfg 1 p ply pv α β s).2.1 := by
  have h1 := fun c pv2 a2 b2 st => minimax_zero_spec G cfg c (ply+1) pv2 a2 b2 st
  have h2 := fun c pv2 a2 b2 st => minimaxFW_zero_spec G cfg c (ply+1) pv2 a2 b2 st
  show (minimax G cfg (0+1) p ply pv α β s).2.1 =
    (minimaxFW G cfg (0+1) p ply pv α β s).2.1
  simp only [minimax, minimaxFW]
  split
  · rfl
  · cases hte : ttGet cfg.noTable s.table (G.hash p) with
    | none => exact searchNode_agnostic_value h1 h2 p ply (0+1) none pv α β _
    | some te =>
      simp only []
      split
      · cases hmv : G.move p te.m with
        | none => exact searchNode_agnostic_value h1 h2 p ply (0+1) none pv α β _
        | some c => rfl
      · exact searchNode_agnostic_value h1 h2 p ply (0+1) (some te) pv α β _

/-- Whether the transposition probe of `minimax` returns early: the entry
verifies, suffices for the window, and its stored move applies. -/
def probeFires (G : Game Pos M) (cfg : MMConfig) (p : Pos) (depth : Nat)
    (α β : Int) (table : Nat → TableEntry M) : Bool :=
  match ttGet cfg.noTable table (G.hash p) with
  | some te => teSuffices te depth α β && (G.move p te.m).isSome
  | none => false

/-- The move loop's fail-soft value never drops below the incoming `α`. -/
theorem searchLoop_alpha_le {G : Game Pos M} {u : Bool}
    {search : Pos → List M → Int → Int → SearchState M →
      List M × Int × SearchState M} {p : Pos} :
    ∀ (moves : List M) (i : Nat) (best : List M) (improved : Bool)
      (α β : Int) (s : SearchState M),
      α ≤ (searchLoop G u search p moves i best improved α β s).2.1 := by
  intro moves
  induction moves with
  | nil => intro i best improved α β s; simp [searchLoop]
  | cons m rest ih =>
    intro i best improved α β s
    simp only [searchLoop]
    cases hmv : G.move p m with
    | none => exact ih i best improved α β s
    | some child =>
      simp only []
      split
      · split
        · exact le_of_lt (by assumption)
        · exact le_trans (le_of_lt (by assumption))
            (ih (i+1) (m :: (pvsChild u search child best.tail (i+1) α β s).1)
              true (-(pvsChild u search child best.tail (i+1) α β s).2.1) β
              (pvsChild u search child best.tail (i+1) α β s).2.2)
      · exact ih (i+1) _ improved α β _

/-- Once `improved` is set it stays set. -/
theorem searchLoop_improved_mono {G : Game Pos M} {u : Bool}
    {search : Pos → List M → Int → Int → SearchState M →
      List M × Int × SearchState M} {p : Pos} :
    ∀ (moves : List M) (i : Nat) (best : List M) (α β : Int)
      (s : SearchState M),
      (searchLoop G u search p moves i best true α β s).2.2.1 = true := by
  intro moves
  induction moves with
  | nil => intro i best α β s; rfl
  | cons m rest ih =>
    intro i best α β s
    simp only [searchLoop]
    cases hmv : G.move p m with
    | none => exact ih i best α β s
    | some child =>
      simp only []
      split
      · split
        · rfl
        · exact ih (i+1) _ _ β _
      · exact ih (i+1) _ α β _

/-- A loop that reports no improvement returns the incoming `α`
unchanged. -/
theorem searchLoop_not_improved {G : Game Pos M} {u : Bool}
    {search : Pos → List M → Int → Int → SearchState M →
      List M × Int × SearchState M} {p : Pos} :
    ∀ (moves : List M) (i : Nat) (best : List M) (improved : Bool)
      (α β : Int) (s : SearchState M),
      (searchLoop G u search p moves i best improved α β s).2.2.1 = false →
      (searchLoop G u search p moves i best improved α β s).2.1 = α := by
  intro moves
  induction moves with
  | nil => intro i best improved α β s _; rfl
  | cons m rest ih =>
    intro i best improved α β s
    simp only [searchLoop]
    cases hmv : G.move p m with
    | none => exact ih i best improved α β s
    | some child =>
      simp only []
      split
      · split
        · intro h; simp at h
        · intro h
          rw [searchLoop_improved_mono] at h
          cases h
      · exact ih (i+1) _ improved α β _

/-- A loop entered unimproved that reports an improvement returns a value
strictly above the incoming `α`. -/
theorem searchLoop_improved_gt {G : Game Pos M} {u : Bool}
    {search : Pos → List M → Int → Int → SearchState M →
      List M × Int × SearchState M} {p : Pos} :
    ∀ (moves : List M) (i : Nat) (best : List M) (α β : Int)
      (s : SearchState M),
      (searchLoop G u search p moves i best false α β s).2.2.1 = true →
      α < (searchLoop G u search p moves i best false α β s).2.1 := by
  intro moves
  induction moves with
  | nil => intro i best α β s h; cases h
  | cons m rest ih =>
    intro i best α β s
    simp only [searchLoop]
    cases hmv : G.move p m with
    | none => exact ih i best α β s
    | some child =>
      simp only []
      split
      · split
        · intro _; exact (by assumption)
        · intro _
          exact lt_of_lt_of_le (by assumption)
            (searchLoop_alpha_le rest (i+1)
              (m :: (pvsChild u search child best.tail (i+1) α β s).1)
              true (-(pvsChild u search child best.tail (i+1) α β s).2.1) β
              (pvsChild u search child best.tail (i+1) α β s).2.2)
      · exact ih (i+1) _ α β _

/-- `allNodes` is monotone through the child-search step. -/
theorem pvsChild_allNodes {search : Pos → List M → Int → Int →
      SearchState M → List M × Int × SearchState M}
    (hs : ∀ c pv2 a b st, st.st.allNodes ≤ (search c pv2 a b st).2.2.st.allNodes)
    (u : Bool) (child : Pos) (newpv : List M) (i2 : Nat) (α β : Int)
    (s : SearchState M) :
    s.st.allNodes ≤ (pvsChild u search child newpv i2 α β s).2.2.st.allNodes := by
  unfold pvsChild
  split
  · simp only []
    split
    · exact le_trans (hs child newpv (-α - 1) (-α) s)
        (hs child newpv (-β) (-α) _)
    · exact hs child newpv (-α - 1) (-α) s
  · exact hs child newpv (-β) (-α) s

/-- `allNodes` is monotone through the move loop. -/
theorem searchLoop_allNodes {G : Game Pos M} {u : Bool}
    {search : Pos → List M → Int → Int → SearchState M →
      List M × Int × SearchState M}
    (hs : ∀ c pv2 a b st, st.st.allNodes ≤ (search c pv2 a b st).2.2.st.allNodes)
    (p : Pos) :
    ∀ (moves : List M) (i : Nat) (best : List M) (improved : Bool)
      (α β : Int) (s : SearchState M),
      s.st.allNodes ≤
        (searchLoop G u search p moves i best improved α β s).2.2.2.st.allNodes := by
  intro moves
  induction moves with
  | nil => intro i best improved α β s; simp [searchLoop]
  | cons m rest ih =>
    intro i best improved α β s
    simp only [searchLoop]
    cases hmv : G.move p m with
    | none => exact ih i best improved α β s
    | some child =>
      simp only []
      have hq := pvsChild_allNodes hs u child best.tail (i+1) α β s
      split
      · split
        · exact hq
        · exact le_trans hq (ih (i+1) _ true _ β _)
      · exact le_trans hq (ih (i+1) _ improved α β _)

/-- `allNodes` is monotone through a searched node. -/
theorem searchNode_allNodes {G : Game Pos M} [Inhabited M] {u : Bool}
    {search : Pos → List M → Int → Int → SearchState M →
      List M × Int × SearchState M}
    (hs : ∀ c pv2 a b st, st.st.allNodes ≤ (search c pv2 a b st).2.2.st.allNodes)
    (p : Pos) (ply depth : Nat) (te : Option (TableEntry M)) (pv : List M)
    (α β : Int) (s : SearchState M) :
    s.st.allNodes ≤ (searchNode G u search p ply depth te pv α β s).2.2.st.allNodes := by
  have h := searchLoop_allNodes (G := G) (u := u) hs p
    (G.genMoves p ply depth te pv) 0 pv false α β s
  simp only [searchNode]
  split
  · simpa using Nat.le_succ_of_le h
  · simpa using h

/-- `allNodes` is monotone through the whole search. -/
theorem minimax_allNodes {G : Game Pos M} [Inhabited M] {cfg : MMConfig} :
    ∀ (d : Nat) (p : Pos) (ply : Nat) (pv : List M) (a b : Int)
      (s : SearchState M),
      s.st.allNodes ≤ (minimax G cfg d p ply pv a b s).2.2.st.allNodes := by
  intro d
  induction d with
  | zero => intro p ply pv a b s; simp [minimax, leafResult]
  | succ n ih =>
    intro p ply pv a b s
    simp only [minimax]
    split
    · simp [leafResult]
    · cases hte : ttGet cfg.noTable s.table (G.hash p) with
      | none =>
        exact searchNode_allNodes (G := G) (u := true)
          (fun c pv2 a2 b2 st => ih c (ply+1) pv2 a2 b2 st) p ply (n+1) none pv a b
          { s with st := { s.st with visited := s.st.visited + 1 } }
      | some te =>
        simp only []
        split
        · cases hmv : G.move p te.m with
          | none =>
            exact searchNode_allNodes (G := G) (u := true)
              (fun c pv2 a2 b2 st => ih c (ply+1) pv2 a2 b2 st) p ply (n+1) none pv a b
              { s with st := { s.st with visited := s.st.visited + 1 } }
          | some c => simp
        · exact searchNode_allNodes (G := G) (u := true)
            (fun c pv2 a2 b2 st => ih c (ply+1) pv2 a2 b2 st) p ply (n+1) (some te) pv a b
            { s with st := { s.st with visited := s.st.visited + 1 } }

/-- Reading back a just-stored entry whose hash field matches returns it. -/
theorem ttGet_ttWrite_self {table : Nat → TableEntry M} {h : Nat}
    {e : TableEntry M} (he : e.hash = h) :
    ttGet false (ttWrite table h e) h = some e := by
  unfold ttGet ttWrite
  simp [he]

/-- The store step after the move loop: the node's slot afterwards holds
the position's hash, the node depth, the final fail-soft value, the head of
the best line, and a bound that is Upper when no move raised `α` (also
bumping `allNodes`), Lower on a `β`-cutoff, and Exact otherwise. -/
theorem searchNode_store {G : Game Pos M} [Inhabited M] {u : Bool}
    {search : Pos → List M → Int → Int → SearchState M →
      List M × Int × SearchState M}
    (hs : ∀ c pv2 a b st, st.st.allNodes ≤ (search c pv2 a b st).2.2.st.allNodes)
    (p : Pos) (ply depth : Nat) (te : Option (TableEntry M)) (pv : List M)
    (α β : Int) (s : SearchState M) :
    ∃ en : TableEntry M,
      ttGet false (searchNode G u search p ply depth te pv α β s).2.2.table
          (G.hash p) = some en ∧
      en.hash = G.hash p ∧ en.depth = depth ∧
      en.value = (searchNode G u search p ply depth te pv α β s).2.1 ∧
      en.m = (searchNode G u search p ply depth te pv α β s).1.headI ∧
      en.bound = (if (searchNode G u search p ply depth te pv α β s).2.1 ≤ α
          then Bound.upper
          else if β ≤ (searchNode G u search p ply depth te pv α β s).2.1
          then Bound.lower else Bound.exact) ∧
      (en.bound = Bound.upper →
        s.st.allNodes < (searchNode G u search p ply depth te pv α β s).2.2.st.allNodes) := by
  have hL := searchLoop_allNodes (G := G) (u := u) hs p
    (G.genMoves p ply depth te pv) 0 pv false α β s
  have hni := @searchLoop_not_improved Pos M G u search
    p (G.genMoves p ply depth te pv) 0 pv false α β s
  have hgt := @searchLoop_improved_gt Pos M G u search
    p (G.genMoves p ply depth te pv) 0 pv α β s
  simp only [searchNode]
  refine ⟨_, ttGet_ttWrite_self rfl, rfl, rfl, rfl, rfl, ?_, ?_⟩
  · cases hbv : (searchLoop G u search p (G.genMoves p ply depth te pv) 0 pv
        false α β s).2.2.1 with
    | false =>
      have ha := hni hbv
      simp only [hbv, ha]
      norm_num
    | true =>
      have ha := hgt hbv
      simp [not_le.mpr ha, ge_iff_le]
  · intro hbound
    cases hbv : (searchLoop G u search p (G.genMoves p ply depth te pv) 0 pv
        false α β s).2.2.1 with
    | true =>
      rw [hbv] at hbound
      simp at hbound
      split at hbound <;> cases hbound
    | false =>
      simp
      omega

/-- C7 (confirmed).  After the move loop at every internal node (one that
reaches the loop: non-terminal, nonzero depth, probe not firing), the
transposition entry written for the position's hash stores the node depth,
`best_move = best[0]`, `value = α` (the returned value), and a bound that
is Upper exactly when no move raised `α` — incrementing `all_nodes` — Lower
when `α ≥ β`, and Exact otherwise. -/
theorem claim7_tt_store {G : Game Pos M} [Inhabited M] {cfg : MMConfig}
    {p : Pos} {depth ply : Nat} {pv : List M} {α β : Int} {s : SearchState M}
    (hd : depth ≠ 0) (hov : G.over p = false)
    (hnf : probeFires G cfg p depth α β s.table = false) :
    ∃ en : TableEntry M,
      ttGet false (minimax G cfg depth p ply pv α β s).2.2.table (G.hash p) =
        some en ∧
      en.hash = G.hash p ∧ en.depth = depth ∧
      en.value = (minimax G cfg depth p ply pv α β s).2.1 ∧
      en.m = (minimax G cfg depth p ply pv α β s).1.headI ∧
      en.bound = (if (minimax G cfg depth p ply pv α β s).2.1 ≤ α
          then Bound.upper
          else if β ≤ (minimax G cfg depth p ply pv α β s).2.1
          then Bound.lower else Bound.exact) ∧
      (en.bound = Bound.upper →
        s.st.allNodes < (minimax G cfg depth p ply pv α β s).2.2.st.allNodes) := by
  obtain ⟨d, rfl⟩ := Nat.exists_eq_succ_of_ne_zero hd
  have hs := fun c pv2 a2 b2 st =>
    @minimax_allNodes Pos M G _ cfg d c (ply + 1) pv2 a2 b2 st
  unfold probeFires at hnf
  cases hte : ttGet cfg.noTable s.table (G.hash p) with
  | none =>
    have hmini : minimax G cfg (d+1) p ply pv α β s =
        searchNode G true
          (fun c2 pv2 a2 b2 st => minimax G cfg d c2 (ply + 1) pv2 a2 b2 st)
          p ply (d+1) none pv α β
          { s with st := { s.st with visited := s.st.visited + 1 } } := by
      simp only [minimax]
      rw [if_neg (by simp [hov]), hte]
    rw [hmini]
    exact searchNode_store hs p ply (d+1) none pv α β _
  | some te =>
    rw [hte] at hnf
    simp only [] at hnf
    by_cases hsuf : teSuffices te (d+1) α β = true
    · have happ : G.move p te.m = none := by
        cases happx : G.move p te.m with
        | none => rfl
        | some c => rw [hsuf, happx] at hnf; simp at hnf
      have hmini : minimax G cfg (d+1) p ply pv α β s =
          searchNode G true
            (fun c2 pv2 a2 b2 st => minimax G cfg d c2 (ply + 1) pv2 a2 b2 st)
            p ply (d+1) none pv α β
            { s with st := { s.st with visited := s.st.visited + 1 } } := by
        simp only [minimax]
        rw [if_neg (by simp [hov]), hte]
        simp [hsuf, happ]
      rw [hmini]
      exact searchNode_store hs p ply (d+1) none pv α β _
    · have hmini : minimax G cfg (d+1) p ply pv α β s =
          searchNode G true
            (fun c2 pv2 a2 b2 st => minimax G cfg d c2 (ply + 1) pv2 a2 b2 st)
            p ply (d+1) (some te) pv α β
            { s with st := { s.st with visited := s.st.visited + 1 } } := by
        simp only [minimax]
        rw [if_neg (by simp [hov]), hte]
        simp [hsuf]
      rw [hmini]
      exact searchNode_store hs p ply (d+1) (some te) pv α β _

/-- C7 (witness).  The store theorem at a concrete depth-1 node of `GC6`
with window `(0, 10)` from a fresh state. -/
theorem claim7_tt_store_witness :
    ∃ en : TableEntry Nat,
      ttGet false (minimax GC6 { depth := 3 } 1 0 0 [] 0 10 freshState).2.2.table
        (GC6.hash 0) = some en ∧
      en.hash = GC6.hash 0 ∧ en.depth = 1 ∧
      en.value = (minimax GC6 { depth := 3 } 1 0 0 [] 0 10 freshState).2.1 ∧
      en.m = (minimax GC6 { depth := 3 } 1 0 0 [] 0 10 freshState).1.headI ∧
      en.bound = (if (minimax GC6 { depth := 3 } 1 0 0 [] 0 10 freshState).2.1 ≤ 0
          then Bound.upper
          else if 10 ≤ (minimax GC6 { depth := 3 } 1 0 0 [] 0 10 freshState).2.1
          then Bound.lower else Bound.exact) ∧
      (en.bound = Bound.upper →
        (freshState : SearchState Nat).st.allNodes <
          (minimax GC6 { depth := 3 } 1 0 0 [] 0 10 freshState).2.2.st.allNodes) :=
  claim7_tt_store (by decide) rfl (by decide)

/-- The loop's best line is headed by an applicable move whenever it had an
applicable seed or finds an applicable move. -/
theorem searchLoop_head {G : Game Pos M} [Inhabited M] {u : Bool}
    {search : Pos → List M → Int → Int → SearchState M →
      List M × Int × SearchState M} {p : Pos} :
    ∀ (moves : List M) (i : Nat) (best : List M) (improved : Bool)
      (α β : Int) (s : SearchState M),
      (best = [] ∨ (G.move p best.headI).isSome) →
      ((∃ m ∈ moves, (G.move p m).isSome) ∨ best ≠ []) →
      (searchLoop G u search p moves i best improved α β s).1 ≠ [] ∧
      (G.move p (searchLoop G u search p moves i best improved α β s).1.headI).isSome := by
  intro moves
  induction moves with
  | nil =>
    intro i best improved α β s hb hm
    have hbne : best ≠ [] := by
      rcases hm with ⟨m, hm1, _⟩ | h
      · cases hm1
      · exact h
    rcases hb with rfl | h
    · exact absurd rfl hbne
    · exact ⟨hbne, h⟩
  | cons m rest ih =>
    intro i best improved α β s hb hm
    simp only [searchLoop]
    cases hmv : G.move p m with
    | none =>
      apply ih i best improved α β s hb
      rcases hm with ⟨m2, hm2, happ2⟩ | h
      · rcases List.mem_cons.mp hm2 with rfl | hm2r
        · rw [hmv] at happ2; simp at happ2
        · exact Or.inl ⟨m2, hm2r, happ2⟩
      · exact Or.inr h
    | some child =>
      simp only []
      split
      · split
        · constructor
          · simp
          · simp [hmv]
        · apply ih (i+1) _ true _ β _
          · exact Or.inr (by simp [hmv])
          · exact Or.inr (by simp)
      · by_cases hbe : best.isEmpty
        · rw [if_pos hbe]
          apply ih (i+1) _ improved α β _
          · exact Or.inr (by simp [hmv])
          · exact Or.inr (by simp)
        · rw [if_neg hbe]
          apply ih (i+1) best improved α β _ hb
          exact Or.inr (by simpa using hbe)

/-- A non-terminal search at nonzero depth returns a non-empty pv headed by
an applicable move, given an applicable pv hint and a generator that always
offers an applicable move. -/
theorem minimax_head {G : Game Pos M} [Inhabited M] {cfg : MMConfig}
    (hgen : ∀ (q : Pos) (ply2 d : Nat) (te : Option (TableEntry M))
      (pv2 : List M), G.over q = false →
      ∃ m ∈ G.genMoves q ply2 d te pv2, (G.move q m).isSome) :
    ∀ (depth : Nat) (p : Pos) (ply : Nat) (pv : List M) (α β : Int)
      (s : SearchState M), depth ≠ 0 → G.over p = false →
      (pv = [] ∨ (G.move p pv.headI).isSome) →
      (minimax G cfg depth p ply pv α β s).1 ≠ [] ∧
      (G.move p (minimax G cfg depth p ply pv α β s).1.headI).isSome := by
  intro depth p ply pv α β s hd hov hpv
  obtain ⟨d, rfl⟩ := Nat.exists_eq_succ_of_ne_zero hd
  simp only [minimax]
  rw [if_neg (by simp [hov])]
  cases hte : ttGet cfg.noTable s.table (G.hash p) with
  | none =>
    exact searchLoop_head _ 0 pv false α β _ hpv
      (Or.inl (hgen p ply (d+1) none pv hov))
  | some te =>
    simp only []
    split
    · cases happ : G.move p te.m with
      | none =>
        exact searchLoop_head _ 0 pv false α β _ hpv
          (Or.inl (hgen p ply (d+1) none pv hov))
      | some c =>
        refine ⟨by simp, ?_⟩
        simp [happ]
    · exact searchLoop_head _ 0 pv false α β _ hpv
        (Or.inl (hgen p ply (d+1) (some te) pv hov))

/-- The deepening loop preserves a non-empty, applicable-headed pv. -/
theorem deepen_head {G : Game Pos M} [Inhabited M] {cfg : MMConfig}
    {ts : Nat → Bool} {p : Pos} {base : Nat}
    (hgen : ∀ (q : Pos) (ply2 d : Nat) (te : Option (TableEntry M))
      (pv2 : List M), G.over q = false →
      ∃ m ∈ G.genMoves q ply2 d te pv2, (G.move q m).isSome)
    (hov : G.over p = false) :
    ∀ (fuel i : Nat) (ms : List M) (v : Int) (s : SearchState M),
      1 ≤ i → cfg.depth + 1 - (i + base) ≤ fuel →
      ((i + base ≤ cfg.depth) ∨ (ms ≠ [] ∧ (G.move p ms.headI).isSome)) →
      (ms = [] ∨ (G.move p ms.headI).isSome) →
      (deepenLoop G cfg ts p base fuel i ms v s).1 ≠ [] ∧
      (G.move p (deepenLoop G cfg ts p base fuel i ms v s).1.headI).isSome := by
  intro fuel
  induction fuel with
  | zero =>
    intro i ms v s hi hf hor hms
    rcases hor with h | h
    · omega
    · exact h
  | succ n ih =>
    intro i ms v s hi hf hor hms
    simp only [deepenLoop]
    split
    · have hmm := @minimax_head Pos M G _ cfg hgen (i + base) p 0 ms (minEval - 1)
        (maxEval + 1) { s with st := { depth := i + base } } (by omega) hov hms
      split
      · exact hmm
      · split
        · exact hmm
        · exact ih (i+1) _ _ _ (by omega) (by omega)
            (Or.inr hmm) (Or.inr hmm.2)
    · rcases hor with h | h
      · omega
      · exact h

/-- `head?` of a non-empty list is its `headI`. -/
theorem headq_of_ne_nil {A : Type} [Inhabited A] (l : List A) (h : l ≠ []) :
    l.head? = some l.headI := by
  cases l with
  | nil => exact absurd rfl h
  | cons a t => rfl

/-- C8 (amended).  For every non-terminal input position, provided the
searcher is configured to search at least one ply, any entry at the root
hash holds an applicable move (no collision), and the rule engine yields at
least one applicable move per generated list, `Analyze` returns a non-empty
pv whose first move applies to the position, and `GetMove` returns exactly
that first move. -/
theorem claim8_amended {G : Game Pos M} [Inhabited M] {cfg : MMConfig}
    {ts : Nat → Bool} {p : Pos} {s : SearchState M}
    (hgen : ∀ (q : Pos) (ply2 d : Nat) (te : Option (TableEntry M))
      (pv2 : List M), G.over q = false →
      ∃ m ∈ G.genMoves q ply2 d te pv2, (G.move q m).isSome)
    (hov : G.over p = false) (hd : 1 ≤ cfg.depth)
    (hroot : ∀ te, ttGet cfg.noTable s.table (G.hash p) = some te →
      (G.move p te.m).isSome) :
    (Analyze G cfg ts p s).1 ≠ [] ∧
    (G.move p (Analyze G cfg ts p s).1.headI).isSome ∧
    GetMove G cfg ts p s = some (Analyze G cfg ts p s).1.headI := by
  have key : (Analyze G cfg ts p s).1 ≠ [] ∧
      (G.move p (Analyze G cfg ts p s).1.headI).isSome := by
    unfold Analyze
    cases hte : ttGet cfg.noTable s.table (G.hash p) with
    | none =>
      exact deepen_head hgen hov (cfg.depth + 1) 1 [] 0 s (by omega)
        (Nat.sub_le _ _) (Or.inl hd) (Or.inl rfl)
    | some te =>
      simp only []
      split
      · exact deepen_head hgen hov (cfg.depth + 1) 1 [te.m] 0 s (by omega)
          (Nat.sub_le _ _) (Or.inr ⟨by simp, hroot te hte⟩)
          (Or.inr (hroot te hte))
      · exact deepen_head hgen hov (cfg.depth + 1) 1 [] 0 s (by omega)
          (Nat.sub_le _ _) (Or.inl hd) (Or.inl rfl)
  exact ⟨key.1, key.2, headq_of_ne_nil _ key.1⟩

/-- Edges of `GC8`: positions `1` and `2` each have one legal move (move
numbers `1` and `2` respectively) into terminal positions. -/
def edgesC8 : Nat → List (Nat × Nat)
  | 1 => [(1, 3)]
  | 2 => [(2, 4)]
  | _ => []

/-- A game with a genuine hash collision: positions `1` and `2` share hash
`7`, and the root move of `1` does not apply to `2`. -/
def GC8 : Game Nat Nat :=
  { over := fun p => decide (3 ≤ p)
    hash := fun p => if p ≤ 2 then 7 else p + 1
    move := fun p m => (edgesC8 p).lookup m
    evaluate := fun p => if p = 3 then -1 else 0
    genMoves := fun p _ _ _ _ => (edgesC8 p).map (·.1) }

/-- C8 (counterexample).  The claim promises a non-empty pv with a legal
first move for every non-terminal position.  After analyzing position `1`
of `GC8`, analyzing the colliding position `2` returns the cached pv `[1]`
whose move does not apply to `2` (while `2` does have the legal move `2`);
and with `Depth = 0` the pv of a non-terminal position is empty. -/
theorem claim8_counterexample :
    GC8.over 2 = false ∧ GC8.hash 1 = GC8.hash 2 ∧
    (Analyze GC8 { depth := 1 } (fun _ => false) 2
        (Analyze GC8 { depth := 1 } (fun _ => false) 1 freshState).2.2).1 = [1] ∧
    GC8.move 2 1 = none ∧
    GC8.move 2 2 = some 4 ∧
    (Analyze GC8 { depth := 0 } (fun _ => false) 1 freshState).1 = [] := by
  refine ⟨rfl, rfl, by decide, rfl, rfl, by decide⟩

/-- The `GT9` game with every position other than the root terminal, so
that the generator contract holds everywhere. -/
def GW8 : Game Nat Nat :=
  mkGame (fun p => p != 0) edgesT9 (fun p => if p = 1 then -5 else 0)

/-- C8 (witness).  The amended theorem at the concrete game `GW8`. -/
theorem claim8_amended_witness :
    (Analyze GW8 { depth := 1 } (fun _ => false) 0 freshState).1 ≠ [] ∧
    (GW8.move 0
      (Analyze GW8 { depth := 1 } (fun _ => false) 0 freshState).1.headI).isSome ∧
    GetMove GW8 { depth := 1 } (fun _ => false) 0 freshState =
      some (Analyze GW8 { depth := 1 } (fun _ => false) 0 freshState).1.headI := by
  apply claim8_amended
  · intro q ply2 d te pv2 hq
    have hq0 : q = 0 := by simpa [GW8, mkGame] using hq
    subst hq0
    refine ⟨1, ?_, by decide⟩
    show (1 : Nat) ∈ [1]
    decide
  · rfl
  · decide
  · intro te hte
    rw [show ttGet false (freshState : SearchState Nat).table (GW8.hash 0) =
      none from rfl] at hte
    cases hte

/-- Scanning step of the reorder loop: an index holding neither the pv move,
nor the tt move, nor a move on the pv move's target square is skipped. -/
theorem reorderAux_skip (pv0 t : TakMove) (fuel i j : Nat)
    (moves : Array TakMove) (hi : i < moves.size)
    (h1 : moves[i] ≠ pv0) (h2 : moves[i] ≠ t)
    (h3 : ¬(moves[i].x = pv0.x ∧ moves[i].y = pv0.y)) :
    reorderAux pv0 (some t) (fuel + 1) i j moves =
      reorderAux pv0 (some t) fuel (i + 1) j moves := by
  conv_lhs => rw [reorderAux]
  rw [dif_pos hi]
  simp only []
  rw [if_neg h1]
  rw [dif_neg (fun hc => h2 (Option.some.inj hc.1).symm)]
  rw [dif_neg (fun hc => h3 hc.2)]

/-- The reorder scan passes unchanged over a stretch of indices that hold
neither the pv move, the tt move, nor a move on the pv target square. -/
theorem reorderAux_pass (pv0 t : TakMove) (k : Nat) :
    ∀ (d i j : Nat) (moves : Array TakMove),
      i + d = k → k ≤ moves.size →
      (∀ (l : Nat) (hl : l < moves.size), i ≤ l → l < k →
        moves[l] ≠ pv0 ∧ moves[l] ≠ t ∧
        ¬(moves[l].x = pv0.x ∧ moves[l].y = pv0.y)) →
      reorderAux pv0 (some t) (moves.size - i) i j moves =
        reorderAux pv0 (some t) (moves.size - k) k j moves := by
  intro d
  induction d with
  | zero =>
    intro i j moves hik _ _
    rw [show i = k from by omega]
  | succ n ih =>
    intro i j moves hik hks hcl
    have hi : i < moves.size := by omega
    have hcli := hcl i hi le_rfl (by omega)
    have hfuel : moves.size - i = (moves.size - (i+1)) + 1 := by omega
    rw [hfuel, reorderAux_skip pv0 t _ i j moves hi hcli.1 hcli.2.1 hcli.2.2]
    exact ih (i+1) j moves (by omega) hks
      (fun l hl hl1 hl2 => hcl l hl (by omega) hl2)

/-- If every index from the scan position onward is clean, the reorder scan
terminates and returns the array unchanged. -/
theorem reorderAux_tail (pv0 t : TakMove) :
    ∀ (d i j : Nat) (moves : Array TakMove),
      moves.size ≤ i + d →
      (∀ (l : Nat) (hl : l < moves.size), i ≤ l →
        moves[l] ≠ pv0 ∧ moves[l] ≠ t ∧
        ¬(moves[l].x = pv0.x ∧ moves[l].y = pv0.y)) →
      reorderAux pv0 (some t) (moves.size - i) i j moves = moves := by
  intro d
  induction d with
  | zero =>
    intro i j moves hsz _
    rw [show moves.size - i = 0 from by omega]
    rfl
  | succ n ih =>
    intro i j moves hsz hcl
    by_cases hi : i < moves.size
    · have hcli := hcl i hi le_rfl
      have hfuel : moves.size - i = (moves.size - (i+1)) + 1 := by omega
      rw [hfuel, reorderAux_skip pv0 t _ i j moves hi hcli.1 hcli.2.1 hcli.2.2]
      exact ih (i+1) j moves (by omega) (fun l hl hl1 => hcl l hl (by omega))
    · rw [show moves.size - i = 0 from by omega]
      rfl

/-- At the index holding the pv move the scan swaps it to slot 0 and then
either stops (placement move, Type below SlideLeft) or continues on the
swapped array (slide move). -/
theorem reorderAux_at_pv (pv0 t : TakMove) (k j : Nat)
    (moves : Array TakMove) (hk : k < moves.size) (hpv : moves[k] = pv0) :
    reorderAux pv0 (some t) (moves.size - k) k j moves =
      (if pv0.type.idx < MoveType.slideLeft.idx
       then moves.swap ⟨0, Nat.lt_of_le_of_lt (Nat.zero_le k) hk⟩ ⟨k, hk⟩
       else reorderAux pv0 (some t) (moves.size - (k+1)) (k+1) j
         (moves.swap ⟨0, Nat.lt_of_le_of_lt (Nat.zero_le k) hk⟩ ⟨k, hk⟩)) := by
  have hfuel : moves.size - k = (moves.size - (k+1)) + 1 := by omega
  rw [hfuel]
  conv_lhs => rw [reorderAux]
  rw [dif_pos hk]
  simp only []
  rw [if_pos hpv, hpv]

/-- At the index holding the tt move the scan swaps it to the next front
slot j and advances both the scan index and j. -/
theorem reorderAux_at_tt (pv0 t : TakMove) (kp j : Nat)
    (moves : Array TakMove) (hkp : kp < moves.size) (hj : j < moves.size)
    (hm : moves[kp] = t) (hne : t ≠ pv0) :
    reorderAux pv0 (some t) (moves.size - kp) kp j moves =
      reorderAux pv0 (some t) (moves.size - (kp+1)) (kp+1) (j+1)
        (moves.swap ⟨j, hj⟩ ⟨kp, hkp⟩) := by
  have hfuel : moves.size - kp = (moves.size - (kp+1)) + 1 := by omega
  rw [hfuel]
  conv_lhs => rw [reorderAux]
  rw [dif_pos hkp]
  simp only []
  rw [if_neg (by rw [hm]; exact hne)]
  rw [dif_pos ⟨by rw [hm], hj⟩]

/-- At an index holding a move on the pv move's target square that is
neither the pv move nor the tt move, the scan swaps it to the next front
slot j and advances both the scan index and j. -/
theorem reorderAux_at_local (pv0 t : TakMove) (kl j : Nat)
    (moves : Array TakMove) (hkl : kl < moves.size) (hj : j < moves.size)
    (hn1 : moves[kl] ≠ pv0) (hn2 : moves[kl] ≠ t)
    (hloc : moves[kl].x = pv0.x ∧ moves[kl].y = pv0.y) :
    reorderAux pv0 (some t) (moves.size - kl) kl j moves =
      reorderAux pv0 (some t) (moves.size - (kl+1)) (kl+1) (j+1)
        (moves.swap ⟨j, hj⟩ ⟨kl, hkl⟩) := by
  have hfuel : moves.size - kl = (moves.size - (kl+1)) + 1 := by omega
  rw [hfuel]
  conv_lhs => rw [reorderAux]
  rw [dif_pos hkl]
  simp only []
  rw [if_neg hn1]
  rw [dif_neg (fun hc => hn2 (Option.some.inj hc.1).symm)]
  rw [dif_pos ⟨hj, hloc⟩]

/-- C4 (amended): in the per-node reorder pass, the first move of the
incoming PV is swapped to index 0, and the roles of slide and placement are
the REVERSE of the claim: if the PV move is a placement (Type below
SlideLeft) all remaining reordering stops there, while if it is a slide
(Type at or above SlideLeft) the scan continues, swapping the TT entry's
best move and then the move on the PV move's target square to the next
front slots 1 and 2. Stated for an array in which the PV move sits at index
k, the TT move at index kp > k, a move sharing the PV move's target square
at index kl > kp, and every other entry matches none of the three. -/
theorem claim4_amended (pv0 t : TakMove) (moves : Array TakMove)
    (k kp kl : Nat)
    (hk : k < moves.size) (hkp : kp < moves.size) (hkl : kl < moves.size)
    (hkkp : k < kp) (hkpkl : kp < kl)
    (hpv : moves[k] = pv0) (ht : moves[kp] = t) (hne : t ≠ pv0)
    (hl1 : moves[kl] ≠ pv0) (hl2 : moves[kl] ≠ t)
    (hloc : moves[kl].x = pv0.x ∧ moves[kl].y = pv0.y)
    (hclean : ∀ (l : Nat) (hl : l < moves.size), l ≠ k → l ≠ kp → l ≠ kl →
      moves[l] ≠ pv0 ∧ moves[l] ≠ t ∧
      ¬(moves[l].x = pv0.x ∧ moves[l].y = pv0.y)) :
    (pv0.type.idx < MoveType.slideLeft.idx →
      reorder [pv0] (some t) moves =
        moves.swap ⟨0, Nat.lt_of_le_of_lt (Nat.zero_le k) hk⟩ ⟨k, hk⟩) ∧
    (MoveType.slideLeft.idx ≤ pv0.type.idx →
      reorder [pv0] (some t) moves =
        ((moves.swap ⟨0, Nat.lt_of_le_of_lt (Nat.zero_le k) hk⟩ ⟨k, hk⟩).swap
          ⟨1, by rw [Array.size_swap]; omega⟩
          ⟨kp, by rw [Array.size_swap]; exact hkp⟩).swap
          ⟨2, by rw [Array.size_swap, Array.size_swap]; omega⟩
          ⟨kl, by rw [Array.size_swap, Array.size_swap]; exact hkl⟩) := by
  have hz : (0 : Nat) < moves.size := Nat.lt_of_le_of_lt (Nat.zero_le k) hk
  have hpass : reorder [pv0] (some t) moves =
      reorderAux pv0 (some t) (moves.size - k) k 1 moves := by
    show reorderAux pv0 (some t) moves.size 0 1 moves = _
    rw [show moves.size = moves.size - 0 from (Nat.sub_zero _).symm]
    exact reorderAux_pass pv0 t k k 0 1 moves (by omega) (by omega)
      (fun l hl h1 h2 => hclean l hl (by omega) (by omega) (by omega))
  constructor
  · intro hplace
    rw [hpass, reorderAux_at_pv pv0 t k 1 moves hk hpv, if_pos hplace]
  · intro hslide
    rw [hpass, reorderAux_at_pv pv0 t k 1 moves hk hpv,
      if_neg (not_lt.mpr hslide)]
    have hsz1 : (moves.swap ⟨0, hz⟩ ⟨k, hk⟩).size = moves.size :=
      Array.size_swap moves _ _
    have hA1get : ∀ (l : Nat) (hl : l < moves.size), l ≠ 0 → l ≠ k →
        getElem (moves.swap ⟨0, hz⟩ ⟨k, hk⟩) l (by rw [hsz1]; exact hl) = moves[l] := by
      intro l hl h0 hkne
      rw [Array.getElem_swap]
      rw [if_neg (by simpa using h0), if_neg (by simpa using hkne)]
    have hstep2 : reorderAux pv0 (some t) (moves.size - (k+1)) (k+1) 1
        (moves.swap ⟨0, hz⟩ ⟨k, hk⟩) =
        reorderAux pv0 (some t) ((moves.swap ⟨0, hz⟩ ⟨k, hk⟩).size - kp) kp 1
          (moves.swap ⟨0, hz⟩ ⟨k, hk⟩) := by
      rw [show moves.size - (k+1) =
        (moves.swap ⟨0, hz⟩ ⟨k, hk⟩).size - (k+1) from by rw [hsz1]]
      exact reorderAux_pass pv0 t kp (kp - (k+1)) (k+1) 1 _ (by omega)
        (by rw [hsz1]; omega)
        (fun l hl h1 h2 => by
          have hlm : l < moves.size := by rw [hsz1] at hl; exact hl
          rw [hA1get l hlm (by omega) (by omega)]
          exact hclean l hlm (by omega) (by omega) (by omega))
    rw [hstep2]
    have hA1kp : getElem (moves.swap ⟨0, hz⟩ ⟨k, hk⟩) kp (by rw [hsz1]; exact hkp) =
        t := by
      rw [hA1get kp hkp (by omega) (by omega)]
      exact ht
    rw [reorderAux_at_tt pv0 t kp 1 (moves.swap ⟨0, hz⟩ ⟨k, hk⟩)
      (by rw [hsz1]; exact hkp) (by rw [hsz1]; omega) hA1kp hne]
    have h1s : (1 : Nat) < (moves.swap ⟨0, hz⟩ ⟨k, hk⟩).size := by
      rw [hsz1]; omega
    have hkps : kp < (moves.swap ⟨0, hz⟩ ⟨k, hk⟩).size := by
      rw [hsz1]; exact hkp
    have hsz2 : ((moves.swap ⟨0, hz⟩ ⟨k, hk⟩).swap ⟨1, h1s⟩ ⟨kp, hkps⟩).size =
        moves.size := by rw [Array.size_swap, hsz1]
    have hA2get : ∀ (l : Nat) (hl : l < moves.size), l ≠ 1 → l ≠ kp →
        l ≠ 0 → l ≠ k →
        getElem ((moves.swap ⟨0, hz⟩ ⟨k, hk⟩).swap ⟨1, h1s⟩
          ⟨kp, hkps⟩) l (by rw [hsz2]; exact hl) = moves[l] := by
      intro l hl h1 hkpne h0 hkne
      rw [Array.getElem_swap]
      rw [if_neg (by simpa using h1), if_neg (by simpa using hkpne)]
      exact hA1get l hl h0 hkne
    have hstep3 : reorderAux pv0 (some t)
        ((moves.swap ⟨0, hz⟩ ⟨k, hk⟩).size - (kp+1)) (kp+1) 2
        ((moves.swap ⟨0, hz⟩ ⟨k, hk⟩).swap ⟨1, h1s⟩ ⟨kp, hkps⟩) =
        reorderAux pv0 (some t)
          (((moves.swap ⟨0, hz⟩ ⟨k, hk⟩).swap ⟨1, h1s⟩ ⟨kp, hkps⟩).size - kl)
          kl 2 ((moves.swap ⟨0, hz⟩ ⟨k, hk⟩).swap ⟨1, h1s⟩ ⟨kp, hkps⟩) := by
      rw [show (moves.swap ⟨0, hz⟩ ⟨k, hk⟩).size - (kp+1) =
        ((moves.swap ⟨0, hz⟩ ⟨k, hk⟩).swap ⟨1, h1s⟩ ⟨kp, hkps⟩).size - (kp+1)
        from by rw [hsz2, hsz1]]
      exact reorderAux_pass pv0 t kl (kl - (kp+1)) (kp+1) 2 _ (by omega)
        (by rw [hsz2]; omega)
        (fun l hl h1 h2 => by
          have hlm : l < moves.size := by rw [hsz2] at hl; exact hl
          rw [hA2get l hlm (by omega) (by omega) (by omega) (by omega)]
          exact hclean l hlm (by omega) (by omega) (by omega))
    rw [hstep3]
    have hA2kl : getElem ((moves.swap ⟨0, hz⟩ ⟨k, hk⟩).swap ⟨1, h1s⟩
        ⟨kp, hkps⟩) kl (by rw [hsz2]; exact hkl) = moves[kl] :=
      hA2get kl hkl (by omega) (by omega) (by omega) (by omega)
    rw [reorderAux_at_local pv0 t kl 2
      ((moves.swap ⟨0, hz⟩ ⟨k, hk⟩).swap ⟨1, h1s⟩ ⟨kp, hkps⟩)
      (by rw [hsz2]; exact hkl) (by rw [hsz2]; omega)
      (by rw [hA2kl]; exact hl1) (by rw [hA2kl]; exact hl2)
      (by rw [hA2kl]; exact hloc)]
    have h2s : (2 : Nat) <
        ((moves.swap ⟨0, hz⟩ ⟨k, hk⟩).swap ⟨1, h1s⟩ ⟨kp, hkps⟩).size := by
      rw [hsz2]; omega
    have hkls : kl <
        ((moves.swap ⟨0, hz⟩ ⟨k, hk⟩).swap ⟨1, h1s⟩ ⟨kp, hkps⟩).size := by
      rw [hsz2]; exact hkl
    have hsz3 : (((moves.swap ⟨0, hz⟩ ⟨k, hk⟩).swap ⟨1, h1s⟩ ⟨kp, hkps⟩).swap
        ⟨2, h2s⟩ ⟨kl, hkls⟩).size = moves.size := by
      rw [Array.size_swap, hsz2]
    have hA3get : ∀ (l : Nat) (hl : l < moves.size), l ≠ 2 → l ≠ kl →
        l ≠ 1 → l ≠ kp → l ≠ 0 → l ≠ k →
        getElem (((moves.swap ⟨0, hz⟩ ⟨k, hk⟩).swap ⟨1, h1s⟩ ⟨kp, hkps⟩).swap
          ⟨2, h2s⟩ ⟨kl, hkls⟩) l (by rw [hsz3]; exact hl) = moves[l] := by
      intro l hl h2 hklne h1 hkpne h0 hkne
      rw [Array.getElem_swap]
      rw [if_neg (by simpa using h2), if_neg (by simpa using hklne)]
      exact hA2get l hl h1 hkpne h0 hkne
    have htail : reorderAux pv0 (some t)
        (((moves.swap ⟨0, hz⟩ ⟨k, hk⟩).swap ⟨1, h1s⟩ ⟨kp, hkps⟩).size -
          (kl+1)) (kl+1) 3
        (((moves.swap ⟨0, hz⟩ ⟨k, hk⟩).swap ⟨1, h1s⟩ ⟨kp, hkps⟩).swap
          ⟨2, h2s⟩ ⟨kl, hkls⟩) =
        ((moves.swap ⟨0, hz⟩ ⟨k, hk⟩).swap ⟨1, h1s⟩ ⟨kp, hkps⟩).swap
          ⟨2, h2s⟩ ⟨kl, hkls⟩ := by
      rw [show ((moves.swap ⟨0, hz⟩ ⟨k, hk⟩).swap ⟨1, h1s⟩ ⟨kp, hkps⟩).size -
        (kl+1) =
        (((moves.swap ⟨0, hz⟩ ⟨k, hk⟩).swap ⟨1, h1s⟩ ⟨kp, hkps⟩).swap
          ⟨2, h2s⟩ ⟨kl, hkls⟩).size - (kl+1) from by rw [hsz3, hsz2]]
      exact reorderAux_tail pv0 t
        (((moves.swap ⟨0, hz⟩ ⟨k, hk⟩).swap ⟨1, h1s⟩ ⟨kp, hkps⟩).swap
          ⟨2, h2s⟩ ⟨kl, hkls⟩).size (kl+1) 3 _
        (by omega)
        (fun l hl hge => by
          have hlm : l < moves.size := by rw [hsz3] at hl; exact hl
          rw [hA3get l hlm (by omega) (by omega) (by omega) (by omega)
            (by omega) (by omega)]
          exact hclean l hlm (by omega) (by omega) (by omega))
    rw [htail]

/-- A placement at an unrelated square, used to fill slot 0 in the C4
counterexample arrays. -/
def mvA : TakMove := ⟨3, 3, MoveType.placeFlat, []⟩

/-- A flat placement used as the PV move in the C4 counterexample. -/
def mvP : TakMove := ⟨0, 0, MoveType.placeFlat, []⟩

/-- A standing placement used as the transposition-table move in the C4
counterexample. -/
def mvT : TakMove := ⟨2, 2, MoveType.placeStanding, []⟩

/-- A slide used as the PV move in the C4 counterexample. -/
def mvS : TakMove := ⟨0, 0, MoveType.slideLeft, [1]⟩

/-- A capstone placement on square (0,0) — the target square of both PV
moves mvP and mvS — used as the locality move in the C4 counterexample. -/
def mvL : TakMove := ⟨0, 0, MoveType.placeCapstone, []⟩

/-- C4 counterexample: with a placement PV move mvP the claim predicts the
TT move mvT and the same-target move mvL are promoted behind it, but
reorder stops after the pv swap and leaves both at the back; with a slide
PV move mvS the claim predicts all remaining reordering is skipped, but
reorder promotes mvT to slot 1 and mvL to slot 2. -/
theorem claim4_counterexample :
    mvP.type.idx < MoveType.slideLeft.idx ∧
    reorder [mvP] (some mvT) #[mvA, mvP, mvT, mvL] = #[mvP, mvA, mvT, mvL] ∧
    mvA ≠ mvT ∧ mvL.x = mvP.x ∧ mvL.y = mvP.y ∧
    MoveType.slideLeft.idx ≤ mvS.type.idx ∧
    reorder [mvS] (some mvT) #[mvA, mvS, mvT, mvL] =
      #[mvS, mvT, mvL, mvA] := by
  refine ⟨by decide, by decide, by decide, by decide, by decide, by decide,
    by decide⟩

/-- Witness for C4 (amended): both branches instantiated on concrete
four-element arrays with the PV move at index 1, the TT move at index 2 and
the same-target move at index 3. -/
theorem claim4_amended_witness :
    reorder [mvS] (some mvT) #[mvA, mvS, mvT, mvL] =
      (((#[mvA, mvS, mvT, mvL] : Array TakMove).swap
          ⟨0, by decide⟩ ⟨1, by decide⟩).swap
        ⟨1, by decide⟩ ⟨2, by decide⟩).swap ⟨2, by decide⟩ ⟨3, by decide⟩ ∧
    reorder [mvP] (some mvT) #[mvA, mvP, mvT, mvL] =
      (#[mvA, mvP, mvT, mvL] : Array TakMove).swap
        ⟨0, by decide⟩ ⟨1, by decide⟩ := by
  constructor
  · exact (claim4_amended mvS mvT #[mvA, mvS, mvT, mvL] 1 2 3 (by decide)
      (by decide) (by decide) (by decide) (by decide) (by decide) (by decide)
      (by decide) (by decide) (by decide) (by decide) (by decide)).2
      (by decide)
  · exact (claim4_amended mvP mvT #[mvA, mvP, mvT, mvL] 1 2 3 (by decide)
      (by decide) (by decide) (by decide) (by decide) (by decide) (by decide)
      (by decide) (by decide) (by decide) (by decide) (by decide)).1
      (by decide)

end Taktician
